import Mathlib

/-!
Verification of the worksheets runtime (helloeave/worksheets).

This file shallowly embeds the Go source of the worksheets package:
values and types with their assignability relation, the worksheet
runtime (`Set`, `Unset`, `Get`, `IsSet`, `Append`, `Del`, dependent
propagation and parent-reference maintenance from `worksheets.go`),
the schema checks of `NewDefinitions`, the JSON marshaler and the
number conversions of `StructScan` (from `marshaling.go`).

Go maps are embedded as association lists; map iteration order, which
Go leaves unspecified, is refined to list order.  Pointers to
worksheets are embedded as worksheet ids together with a store mapping
ids to worksheet states.  Code of the repository that lives outside
the two source files (the value types file and the parser) is modelled
from the specification and marked as such in doc comments.
-/

namespace Worksheets

/-- Types of values, mirroring the `Type` interface and its
implementations (`UndefinedType`, `TextType`, `BoolType`,
`NumberType`, `EnumType`, `SliceType`, `*Definition`).  A worksheet
definition used as a type is represented by its name: `NewDefinitions`
rejects duplicate names and resolves references, so after resolution
names identify definitions and the pointer equality used by
`Worksheet.assignableTo` coincides with name equality. -/
inductive Typ where
  | undefined : Typ
  | text : Typ
  | bool : Typ
  | number (scale : Nat) : Typ
  | enum (name : String) (elements : List String) : Typ
  | slice (elementType : Typ) : Typ
  | defn (name : String) : Typ
  deriving DecidableEq, Repr

/-- Runtime values, mirroring the `Value` implementations: `Undefined`,
`Text`, `Bool`, `Number` (an `int64` mantissa and a scale, denoting
mantissa times ten to the minus scale), `Slice` (an element type and a
list of rank/value pairs), `Worksheet` (a reference, embedded as the
id and definition name of the referenced worksheet) and
`wsRefAtVersion` (a reference pinned at a version). -/
inductive Value where
  | undefined : Value
  | text (s : String) : Value
  | bool (b : Bool) : Value
  | number (m : Int) (scale : Nat) : Value
  | slice (elementType : Typ) (elements : List (Nat × Value)) : Value
  | ws (id : String) (defName : String) : Value
  | wsRefAtVersion (id : String) (defName : String) (version : Nat) : Value

/-- Modelled from the spec: `Value.Equal` lives in the values file,
which is not under src/.  Per section 4.A equality is structural, with
`Number` comparing by normalized magnitude (scale-insensitive:
`1.00 == 1`) and worksheet references comparing by identity (embedded
here as id equality). -/
def Value.equal : Value → Value → Bool
  | .undefined, .undefined => true
  | .text s1, .text s2 => s1 = s2
  | .bool b1, .bool b2 => b1 = b2
  | .number m1 s1, .number m2 s2 => m1 * (10 : Int) ^ s2 = m2 * (10 : Int) ^ s1
  | .slice _ e1, .slice _ e2 => equalElems e1 e2
  | .ws i1 _, .ws i2 _ => i1 = i2
  | .wsRefAtVersion i1 _ v1, .wsRefAtVersion i2 _ v2 => i1 = i2 && v1 = v2
  | _, _ => false
where
  /-- Element lists compare pointwise on ranks and values. -/
  equalElems : List (Nat × Value) → List (Nat × Value) → Bool
    | [], [] => true
    | (r1, v1) :: t1, (r2, v2) :: t2 => r1 = r2 && v1.equal v2 && equalElems t1 t2
    | _, _ => false

/-- `assignableTo`, from `worksheets.go` lines 724-770: one clause per
value kind.  `Undefined` assigns to anything; `Text` to `TextType` or
to an `EnumType` containing the literal; `Bool` to `BoolType`;
`Number` to a `NumberType` of greater or equal scale; `Slice` to a
`SliceType` whose element type every element assigns to; a worksheet
reference to its own resolved definition (pointer equality in Go,
name equality here).  `wsRefAtVersion.assignableTo` is in the values
file, not under src/; modelled from the spec as the same-definition
check of a live reference. -/
def Value.assignableTo : Value → Typ → Bool
  | .undefined, _ => true
  | .text _, .text => true
  | .text s, .enum _ elements => elements.contains s
  | .text _, _ => false
  | .bool _, .bool => true
  | .bool _, _ => false
  | .number _ s, .number s2 => s ≤ s2
  | .number _ _, _ => false
  | .slice _ elements, .slice elementType => elemsAssignable elements elementType
  | .slice _ _, _ => false
  | .ws _ d, .defn n => d = n
  | .ws _ _, _ => false
  | .wsRefAtVersion _ d _, .defn n => d = n
  | .wsRefAtVersion _ _ _, _ => false
where
  /-- The per-element loop of `Slice.assignableTo`. -/
  elemsAssignable : List (Nat × Value) → Typ → Bool
    | [], _ => true
    | (_, v) :: t, u => v.assignableTo u && elemsAssignable t u

/-! ## The worksheet runtime -/

/-- A compute event: the worksheet on which a dependent field was
recomputed, together with the definition name and index of that field.
Events instrument the embedding of `handleDependentUpdates` so that
recomputation counts can be stated; they do not alter the semantics. -/
abbrev Ev := String × String × Int

/-- `Worksheet.data` / `Worksheet.parents` (worksheets.go 70-83).
`parents` is the `parentsRefs` nested map flattened into a list of
(parent definition name, parent field index, parent id) triples kept
duplicate-free by `parentsAdd`. -/
structure WsData where
  defName : String
  data : List (Int × Value)
  parents : List (String × Int × String)

/-- The in-memory graph of live worksheets: Go worksheet pointers are
embedded as ids resolved through this store. -/
structure Store where
  sheets : List (String × WsData)

/-- Lookup in an association list embedding a Go map. -/
def alGet (l : List (Int × Value)) (k : Int) : Option Value :=
  (l.find? (fun p => p.1 == k)).map (fun p => p.2)

/-- Go map assignment `m[k] = v`: replace in place, or append. -/
def alSet : List (Int × Value) → Int → Value → List (Int × Value)
  | [], k, v => [(k, v)]
  | (k2, v2) :: t, k, v => if k2 = k then (k, v) :: t else (k2, v2) :: alSet t k v

/-- Go map deletion `delete(m, k)`. -/
def alDel (l : List (Int × Value)) (k : Int) : List (Int × Value) :=
  l.filter (fun p => p.1 != k)

def Store.getWs (st : Store) (id : String) : Option WsData :=
  (st.sheets.find? (fun p => p.1 == id)).map (fun p => p.2)

/-- Replace the state of the worksheet with the given id (a mutation
through a Go pointer; absent ids are untouched, which cannot arise). -/
def Store.putWs (st : Store) (id : String) (w : WsData) : Store :=
  ⟨st.sheets.map (fun p => if p.1 = id then (id, w) else p)⟩

def Store.modWs (st : Store) (id : String) (f : WsData → WsData) : Store :=
  ⟨st.sheets.map (fun p => if p.1 = id then (p.1, f p.2) else p)⟩

/-- `parentsRefs.addParentViaFieldIndex` (worksheets.go 37-49): nested
map insertion, i.e. idempotent insertion of the flattened triple. -/
def parentsAdd (ps : List (String × Int × String)) (e : String × Int × String) :
    List (String × Int × String) :=
  if e ∈ ps then ps else ps ++ [e]

/-- `parentsRefs.removeParentViaFieldIndex` (worksheets.go 51-67):
deletion of the triple (the cleanup of emptied inner maps is invisible
in the flattened representation). -/
def parentsRemove (ps : List (String × Int × String)) (e : String × Int × String) :
    List (String × Int × String) :=
  ps.filter (fun x => x ≠ e)

/-- `extractChildWs` (worksheets.go 772-787): the worksheets referenced
by a value, recursing into slices and pinned references, with
multiplicity. -/
def extractChildWs : Value → List String
  | .ws id _ => [id]
  | .wsRefAtVersion id _ _ => [id]
  | .slice _ elems => extractList elems
  | _ => []
where
  extractList : List (Nat × Value) → List String
    | [] => []
    | (_, v) :: t => extractChildWs v ++ extractList t

/-- A field (`Field` in Go): its user index, name, type, the name of
the definition it belongs to (`field.def`), optional computed-by and
constrained-by expressions (embedded as their evaluation functions,
taking the worksheet id and the store like `expression.compute` takes
the worksheet), and the dependents wired by `NewDefinitions`,
identified by (definition name, field index). -/
structure Field where
  index : Int
  fname : String
  typ : Typ
  defName : String
  computedBy : Option (String → Store → Except String Value)
  constrainedBy : Option (String → Store → Except String Value)
  dependents : List (String × Int)

/-- A worksheet definition: its name and fields. -/
structure Definition where
  name : String
  fields : List Field

/-- A resolved `Definitions` table. -/
structure Defs where
  defs : List Definition

def Defs.findDef (defs : Defs) (n : String) : Option Definition :=
  defs.defs.find? (fun d => d.name == n)

def Definition.fieldByName (d : Definition) (n : String) : Option Field :=
  d.fields.find? (fun f => f.fname == n)

def Definition.fieldByIndex (d : Definition) (i : Int) : Option Field :=
  d.fields.find? (fun f => f.index == i)

def Defs.fieldAt (defs : Defs) (dn : String) (i : Int) : Option Field :=
  (defs.findDef dn).bind (fun d => d.fieldByIndex i)

/-- Type test used by `Set`/`Unset`/`Get`: is this a `SliceType`. -/
def Typ.isSlice : Typ → Bool
  | .slice _ => true
  | _ => false

/-- The Go type switch `value.(*Undefined)`. -/
def Value.isUndef : Value → Bool
  | .undefined => true
  | _ => false

/-- The constraint acceptance test of `Set`: the computed result is a
`Bool` holding `true`. -/
def Value.isBoolTrue : Value → Bool
  | .bool true => true
  | _ => false

/-- The data update of `Worksheet.set`: writing `Undefined` deletes the
key, any other value is stored. -/
def writeData (w : WsData) (idx : Int) (v : Value) : WsData :=
  if v.isUndef then { w with data := alDel w.data idx }
  else { w with data := alSet w.data idx v }

/-- Result of a mutation: the store after the call, the compute events
that occurred, and the error returned (`none` on success).  Go's `set`
mutates in place before its error returns, so the store component is
meaningful even when `err` is set. -/
structure SetResult where
  st : Store
  events : List Ev
  err : Option String

/-- Step 1 of `handleDependentUpdates` (worksheets.go 658-669): the
worksheets on which a dependent field of definition `dn` must be
recomputed after a write to worksheet `wsId`: the worksheet itself
when the dependent belongs to the same definition, otherwise every
parent recorded under `dn` — at every field index, in map order. -/
def gatherTargets (st : Store) (wsId : String) (dn : String) : List String :=
  match st.getWs wsId with
  | none => []
  | some w =>
    if dn = w.defName then [wsId]
    else (w.parents.filter (fun p => p.1 == dn)).map (fun p => p.2.2)

mutual

/-- `Worksheet.set` (worksheets.go 431-466): read the old value
(absent key means `Undefined`), no-op when equal, check assignability,
store (deleting the key when writing `Undefined`), then run
`handleDependentUpdates`.  `fuel` bounds the depth of cross-worksheet
recomputation recursion, which Go leaves unbounded. -/
def setRec (defs : Defs) (fuel : Nat) (st : Store) (wsId : String) (field : Field)
    (value : Value) : SetResult :=
  match st.getWs wsId with
  | none => ⟨st, [], some "unknown worksheet"⟩
  | some w =>
    let oldValue := (alGet w.data field.index).getD .undefined
    if oldValue.equal value then ⟨st, [], none⟩
    else if !value.assignableTo field.typ then
      ⟨st, [], some "cannot assign value"⟩
    else
      handleDeps defs fuel (st.putWs wsId (writeData w field.index value)) wsId field
        oldValue value
termination_by (fuel, 3, 0)

/-- `Worksheet.handleDependentUpdates` (worksheets.go 656-694): first
the dependent recomputation loop (an error there returns at once,
skipping parents maintenance), then add this worksheet to the parents
of the children of the new value and remove it from the parents of the
children of the old value.  `Del` passes Go `nil` for the new value and
`Append` for the old one; `nil` is embedded as `Undefined`, which has
the same (empty) `extractChildWs`. -/
def handleDeps (defs : Defs) (fuel : Nat) (st : Store) (wsId : String) (field : Field)
    (oldValue newValue : Value) : SetResult :=
  match depLoop defs fuel st wsId field.dependents with
  | ⟨st2, evs, some e⟩ => ⟨st2, evs, some e⟩
  | ⟨st2, evs, none⟩ =>
    let pdn := match st2.getWs wsId with
      | some w => w.defName
      | none => ""
    let st3 := (extractChildWs newValue).foldl
      (fun s cid => s.modWs cid
        (fun c => { c with parents := parentsAdd c.parents (pdn, field.index, wsId) })) st2
    let st4 := (extractChildWs oldValue).foldl
      (fun s cid => s.modWs cid
        (fun c => { c with parents := parentsRemove c.parents (pdn, field.index, wsId) })) st3
    ⟨st4, evs, none⟩
termination_by (fuel, 2, 0)

/-- The outer loop of `handleDependentUpdates`: for each dependent
field, gather the worksheets to recompute (this worksheet when the
dependent belongs to the same definition, otherwise every parent
recorded under the dependent's definition name, at every field index)
and trigger them. -/
def depLoop (defs : Defs) (fuel : Nat) (st : Store) (wsId : String) :
    List (String × Int) → SetResult
  | [] => ⟨st, [], none⟩
  | (dn, di) :: rest =>
    match defs.fieldAt dn di with
    | none => ⟨st, [], some "unknown dependent field"⟩
    | some depField =>
      match targetLoop defs fuel st depField (gatherTargets st wsId dn) with
      | ⟨st2, evs, some e⟩ => ⟨st2, evs, some e⟩
      | ⟨st2, evs, none⟩ =>
        match depLoop defs fuel st2 wsId rest with
        | ⟨st3, evs2, r⟩ => ⟨st3, evs ++ evs2, r⟩
termination_by deps => (fuel, 1, deps.length)

/-- The inner loop of `handleDependentUpdates`: recompute the dependent
field on each gathered worksheet and recursively `set` the result. -/
def targetLoop (defs : Defs) (fuel : Nat) (st : Store) (depField : Field) :
    List String → SetResult
  | [] => ⟨st, [], none⟩
  | tid :: rest =>
    match depField.computedBy with
    | none => ⟨st, [], some "dependent field is not computed"⟩
    | some cb =>
      match cb tid st with
      | .error e => ⟨st, [(tid, depField.defName, depField.index)], some e⟩
      | .ok v =>
        match fuel with
        | 0 => ⟨st, [(tid, depField.defName, depField.index)], some "out of fuel"⟩
        | fuel2 + 1 =>
          match setRec defs fuel2 st tid depField v with
          | ⟨st2, evs, some e⟩ =>
            ⟨st2, (tid, depField.defName, depField.index) :: evs, some e⟩
          | ⟨st2, evs, none⟩ =>
            match targetLoop defs (fuel2 + 1) st2 depField rest with
            | ⟨st3, evs2, r⟩ =>
              ⟨st3, (tid, depField.defName, depField.index) :: (evs ++ evs2), r⟩
termination_by targets => (fuel, 0, targets.length)

end

/-- `Worksheet.get` (worksheets.go 561-580): the stored value, or for
an absent key a fresh empty slice on slice fields and `Undefined`
otherwise. -/
def getValue (w : WsData) (field : Field) : Value :=
  match alGet w.data field.index with
  | some v => v
  | none =>
    match field.typ with
    | .slice et => .slice et []
    | _ => .undefined

/-- Field lookup through `ws.def.fieldsByName`. -/
def fieldOf (defs : Defs) (w : WsData) (name : String) : Option Field :=
  (defs.findDef w.defName).bind (fun d => d.fieldByName name)

/-- `Worksheet.Get` (worksheets.go 546-559): errors on unknown and on
slice fields, otherwise the `get` value. -/
def GetOp (defs : Defs) (st : Store) (wsId : String) (name : String) :
    Except String Value :=
  match st.getWs wsId with
  | none => .error "unknown worksheet"
  | some w =>
    match fieldOf defs w name with
    | none => .error "unknown field"
    | some field =>
      if field.typ.isSlice then .error "Get on slice field, use GetSlice"
      else .ok (getValue w field)

/-- `Worksheet.IsSet` (worksheets.go 491-503): presence of the field's
key in `data`. -/
def IsSetOp (defs : Defs) (st : Store) (wsId : String) (name : String) :
    Except String Bool :=
  match st.getWs wsId with
  | none => .error "unknown worksheet"
  | some w =>
    match fieldOf defs w name with
    | none => .error "unknown field"
    | some field => .ok (alGet w.data field.index).isSome

/-- `Worksheet.Set` (worksheets.go 380-429): reject unknown, computed
and slice fields; on a constrained field tentatively write, evaluate
the constraint, and roll the field back (via the deferred `set` of the
prior value) unless the constraint returned `Bool(true)`; otherwise a
plain `set`. -/
def SetOp (defs : Defs) (fuel : Nat) (st : Store) (wsId : String) (name : String)
    (value : Value) : SetResult :=
  match st.getWs wsId with
  | none => ⟨st, [], some "unknown worksheet"⟩
  | some w =>
    match fieldOf defs w name with
    | none => ⟨st, [], some "unknown field"⟩
    | some field =>
      if field.computedBy.isSome then
        ⟨st, [], some "cannot assign to computed field"⟩
      else if field.typ.isSlice then
        ⟨st, [], some "Set on slice field, use Append, or Del"⟩
      else
        match field.constrainedBy with
        | some cb =>
          let prevValue := getValue w field
          let r1 := setRec defs fuel st wsId field value
          match r1.err with
          | some e =>
            let r2 := setRec defs fuel r1.st wsId field prevValue
            ⟨r2.st, r1.events ++ r2.events, some e⟩
          | none =>
            match cb wsId r1.st with
            | .error e =>
              let r2 := setRec defs fuel r1.st wsId field prevValue
              ⟨r2.st, r1.events ++ r2.events, some e⟩
            | .ok cv =>
              if cv.isBoolTrue then ⟨r1.st, r1.events, none⟩
              else
                let r2 := setRec defs fuel r1.st wsId field prevValue
                ⟨r2.st, r1.events ++ r2.events,
                  some ("not a valid value for constrained field " ++ name)⟩
        | none => setRec defs fuel st wsId field value

/-- `Worksheet.Unset` (worksheets.go 474-481): an explicit error on
slice fields, otherwise exactly `Set(name, NewUndefined())`. -/
def UnsetOp (defs : Defs) (fuel : Nat) (st : Store) (wsId : String) (name : String) :
    SetResult :=
  let isSliceField : Bool :=
    match st.getWs wsId with
    | none => false
    | some w =>
      match fieldOf defs w name with
      | some field => field.typ.isSlice
      | none => false
  if isSliceField then ⟨st, [], some "Unset on slice field names, must use Del"⟩
  else SetOp defs fuel st wsId name .undefined

/-- Modelled from the spec: `Slice.doAppend` lives in the values file,
which is not under src/.  Per section 4.E it appends with a freshly
allocated rank greater than every existing rank and enforces
element-type assignability. -/
def doAppend (elementType : Typ) (elems : List (Nat × Value)) (element : Value) :
    Except String (List (Nat × Value)) :=
  if element.assignableTo elementType then
    .ok (elems ++ [((elems.map (fun e => e.1)).foldl max 0 + 1, element)])
  else .error "cannot append value"

/-- `Worksheet.Append` (worksheets.go 588-622): reject unknown and
non-slice fields; materialize an empty slice for an absent key (stored
immediately, as in the source); `doAppend`; store the new slice and
run `handleDependentUpdates` with the element as new value and Go
`nil` (embedded as `Undefined`) as old value. -/
def AppendOp (defs : Defs) (fuel : Nat) (st : Store) (wsId : String) (name : String)
    (element : Value) : SetResult :=
  match st.getWs wsId with
  | none => ⟨st, [], some "unknown worksheet"⟩
  | some w =>
    match fieldOf defs w name with
    | none => ⟨st, [], some "unknown field"⟩
    | some field =>
      match field.typ with
      | .slice _ =>
        let stored := alGet w.data field.index
        let value0 := stored.getD (getValue w field)
        let data1 := if stored.isSome then w.data else alSet w.data field.index value0
        match value0 with
        | .slice et0 elems =>
          match doAppend et0 elems element with
          | .error e => ⟨st.putWs wsId { w with data := data1 }, [], some e⟩
          | .ok elems2 =>
            let st2 := st.putWs wsId
              { w with data := alSet data1 field.index (.slice et0 elems2) }
            handleDeps defs fuel st2 wsId field .undefined element
        | _ => ⟨st.putWs wsId { w with data := data1 }, [], some "panic: value is not a slice"⟩
      | _ => ⟨st, [], some ("Append on non-slice field " ++ name)⟩

/-- `Worksheet.Del` (worksheets.go 630-654), with `Slice.doDel`
modelled from the spec (the values file is not under src/): remove the
element at the 0-based position, preserving other ranks, with an error
on an out-of-range index; then `handleDependentUpdates` with the
removed value as old value and Go `nil` (embedded as `Undefined`) as
new value. -/
def DelOp (defs : Defs) (fuel : Nat) (st : Store) (wsId : String) (name : String)
    (i : Int) : SetResult :=
  match st.getWs wsId with
  | none => ⟨st, [], some "unknown worksheet"⟩
  | some w =>
    match fieldOf defs w name with
    | none => ⟨st, [], some "unknown field"⟩
    | some field =>
      match field.typ with
      | .slice _ =>
        match getValue w field with
        | .slice et elems =>
          if h : 0 ≤ i ∧ i.toNat < elems.length then
            let deletedValue := (elems.get ⟨i.toNat, h.2⟩).2
            let st1 := st.putWs wsId
              { w with data := alSet w.data field.index (.slice et (elems.eraseIdx i.toNat)) }
            handleDeps defs fuel st1 wsId field deletedValue .undefined
          else ⟨st, [], some "index out of range"⟩
        | _ => ⟨st, [], some "panic: value is not a slice"⟩
      | _ => ⟨st, [], some ("Del on non-slice field " ++ name)⟩

/-- **C4.** For all scales s and s2 and every mantissa m, the value
`Number(m, s)` is assignable to the type `Number(s2)` if and only if
`s ≤ s2`; in particular assignability of a `Number` to its own type is
reflexive and scale never narrows. -/
theorem number_assignableTo_iff_scale_le (m : Int) (s s2 : Nat) :
    (Value.number m s).assignableTo (Typ.number s2) = true ↔ s ≤ s2 := by
  simp [Value.assignableTo]

/-! ## Basic lemmas about values -/

mutual

theorem equal_refl : ∀ (v : Value), v.equal v = true
  | .undefined => rfl
  | .text _ => by simp [Value.equal]
  | .bool _ => by simp [Value.equal]
  | .number _ _ => by simp [Value.equal]
  | .slice _ es => by simp [Value.equal]; exact equalElems_refl es
  | .ws _ _ => by simp [Value.equal]
  | .wsRefAtVersion _ _ _ => by simp [Value.equal]

theorem equalElems_refl : ∀ (l : List (Nat × Value)), Value.equal.equalElems l l = true
  | [] => rfl
  | (_, v) :: t => by
      simp [Value.equal.equalElems]
      exact ⟨equal_refl v, equalElems_refl t⟩

end

mutual

theorem equal_comm : ∀ (v u : Value), v.equal u = u.equal v
  | .undefined, u => by cases u <;> simp [Value.equal]
  | .text _, u => by cases u <;> simp [Value.equal] <;> exact eq_comm
  | .bool _, u => by cases u <;> simp [Value.equal] <;> exact eq_comm
  | .number _ _, u => by cases u <;> simp [Value.equal] <;> exact eq_comm
  | .slice _ es, u => by
      cases u <;> simp [Value.equal]
      exact equalElems_comm es _
  | .ws _ _, u => by cases u <;> simp [Value.equal] <;> exact eq_comm
  | .wsRefAtVersion _ _ _, u => by
      cases u <;> simp [Value.equal, eq_comm]

theorem equalElems_comm : ∀ (l1 l2 : List (Nat × Value)),
    Value.equal.equalElems l1 l2 = Value.equal.equalElems l2 l1
  | [], l2 => by cases l2 <;> simp [Value.equal.equalElems]
  | (_, _) :: _, [] => by simp [Value.equal.equalElems]
  | (r1, v1) :: t1, (r2, v2) :: t2 => by
      simp [Value.equal.equalElems, equal_comm v1 v2, equalElems_comm t1 t2, eq_comm]

end

/-- `Undefined` only equals `Undefined`. -/
theorem equal_undefined_right (v : Value) : v.equal .undefined = true → v = .undefined := by
  cases v <;> simp [Value.equal]

theorem undefined_assignableTo (t : Typ) : Value.undefined.assignableTo t = true := rfl

/-! ## Store primitives and their lemmas -/

/-- The data value at a (worksheet id, field index) position. -/
def Store.valAt (st : Store) (id : String) (idx : Int) : Option Value :=
  (st.getWs id).bind (fun w => alGet w.data idx)

/-- The definition name of the worksheet with the given id. -/
def DefNameAt (st : Store) (id : String) : Option String :=
  (st.getWs id).map (fun w => w.defName)

/-- The parents map of the worksheet with the given id. -/
def ParentsAt (st : Store) (id : String) : Option (List (String × Int × String)) :=
  (st.getWs id).map (fun w => w.parents)

/-- Ids are unique in the store (Go: worksheets are keyed by id). -/
def Store.NodupIds (st : Store) : Prop := (st.sheets.map (fun p => p.1)).Nodup

/-- Two stores with the same worksheet ids (in order) and the same
definition name on every id. -/
def SameFrame (st st' : Store) : Prop :=
  st'.sheets.map (fun p => p.1) = st.sheets.map (fun p => p.1) ∧
  ∀ j, DefNameAt st' j = DefNameAt st j

theorem SameFrame.refl (st : Store) : SameFrame st st := ⟨rfl, fun _ => rfl⟩

theorem sameFrame_trans {st1 st2 st3 : Store} (h1 : SameFrame st1 st2)
    (h2 : SameFrame st2 st3) : SameFrame st1 st3 :=
  ⟨h2.1.trans h1.1, fun j => (h2.2 j).trans (h1.2 j)⟩

theorem SameFrame.nodupIds {st st' : Store} (h : SameFrame st st')
    (hnd : st.NodupIds) : st'.NodupIds := by
  unfold Store.NodupIds at *
  rw [h.1]; exact hnd

theorem alGet_alSet (l : List (Int × Value)) (k : Int) (v : Value) (j : Int) :
    alGet (alSet l k v) j = if j = k then some v else alGet l j := by
  induction l with
  | nil =>
    by_cases h : j = k
    · simp [alGet, alSet, h]
    · have hf : (k == j) = false := by simpa using Ne.symm h
      simp [alGet, alSet, h, hf]
  | cons p t ih =>
    obtain ⟨k2, v2⟩ := p
    by_cases h2 : k2 = k
    · subst h2
      by_cases h : j = k2
      · subst h
        simp [alGet, alSet, List.find?]
      · have hf : (k2 == j) = false := by simpa using Ne.symm h
        simp [alGet, alSet, List.find?, hf, h]
    · by_cases h : j = k2
      · subst h
        simp [alGet, alSet, List.find?, h2, fun hh : j = k => h2 hh]
      · have hf : (k2 == j) = false := by simpa using Ne.symm h
        simp [alGet, alSet, List.find?, h2, hf] at ih ⊢
        exact ih

theorem alGet_alDel (l : List (Int × Value)) (k : Int) (j : Int) :
    alGet (alDel l k) j = if j = k then none else alGet l j := by
  induction l with
  | nil => by_cases h : j = k <;> simp [alGet, alDel, h]
  | cons p t ih =>
    obtain ⟨k2, v2⟩ := p
    by_cases h2 : k2 = k
    · subst h2
      have hb : (k2 != k2) = false := by simp
      by_cases h : j = k2
      · subst h
        simpa [alDel, List.filter_cons, hb] using ih
      · have hf : (k2 == j) = false := by simpa using Ne.symm h
        simp [alGet, alDel, hb, List.find?, hf, h] at ih ⊢
        exact ih
    · have hb : (k2 != k) = true := by simpa using h2
      by_cases h : j = k2
      · subst h
        have hjk : ¬ (j = k) := fun hh => h2 hh
        simp [alGet, alDel, hb, List.find?, hjk]
      · have hf : (k2 == j) = false := by simpa using Ne.symm h
        simp [alGet, alDel, hb, List.find?, hf] at ih ⊢
        exact ih

theorem option_map_const {α β : Type} (o : Option α) (b : β) :
    o.map (fun _ => b) = if o.isSome then some b else none := by
  cases o <;> simp

theorem find?_put (t : List (String × WsData)) (id : String) (w : WsData) (j : String) :
    List.find? (fun p => p.1 == j) (t.map (fun p => if p.1 = id then (id, w) else p)) =
      if j = id then (List.find? (fun p => p.1 == j) t).map (fun _ => (id, w))
      else List.find? (fun p => p.1 == j) t := by
  induction t with
  | nil => by_cases h : j = id <;> simp [h]
  | cons p t ih =>
    obtain ⟨i2, w2⟩ := p
    by_cases h2 : i2 = id
    · subst h2
      by_cases h : j = i2
      · subst h
        simp [List.find?]
      · have hf : (i2 == j) = false := by simpa using Ne.symm h
        simp only [List.map_cons, if_pos rfl]
        rw [List.find?_cons_of_neg _ (by simp [hf]),
            List.find?_cons_of_neg _ (by simp [hf])]
        simpa [h] using ih
    · by_cases h : j = i2
      · subst h
        have hni : ¬ (j = id) := fun hh => h2 hh
        simp only [List.map_cons, if_neg h2]
        rw [List.find?_cons_of_pos _ (by simp), List.find?_cons_of_pos _ (by simp)]
      · have hf : (i2 == j) = false := by simpa using Ne.symm h
        simp only [List.map_cons, if_neg h2]
        rw [List.find?_cons_of_neg _ (by simp [hf]),
            List.find?_cons_of_neg _ (by simp [hf])]
        exact ih

theorem find?_mod (t : List (String × WsData)) (id : String) (g : WsData → WsData)
    (j : String) :
    List.find? (fun p => p.1 == j) (t.map (fun p => if p.1 = id then (p.1, g p.2) else p)) =
      if j = id then (List.find? (fun p => p.1 == j) t).map (fun p => (p.1, g p.2))
      else List.find? (fun p => p.1 == j) t := by
  induction t with
  | nil => by_cases h : j = id <;> simp [h]
  | cons p t ih =>
    obtain ⟨i2, w2⟩ := p
    by_cases h2 : i2 = id
    · subst h2
      by_cases h : j = i2
      · subst h
        simp [List.find?]
      · have hf : (i2 == j) = false := by simpa using Ne.symm h
        simp only [List.map_cons, if_pos rfl]
        rw [List.find?_cons_of_neg _ (by simp [hf]),
            List.find?_cons_of_neg _ (by simp [hf])]
        simpa [h] using ih
    · by_cases h : j = i2
      · subst h
        have hni : ¬ (j = id) := fun hh => h2 hh
        simp only [List.map_cons, if_neg h2]
        rw [List.find?_cons_of_pos _ (by simp), List.find?_cons_of_pos _ (by simp)]
      · have hf : (i2 == j) = false := by simpa using Ne.symm h
        simp only [List.map_cons, if_neg h2]
        rw [List.find?_cons_of_neg _ (by simp [hf]),
            List.find?_cons_of_neg _ (by simp [hf])]
        exact ih

theorem getWs_putWs (st : Store) (id : String) (w : WsData) (j : String) :
    (st.putWs id w).getWs j =
      if j = id then (if (st.getWs id).isSome then some w else none)
      else st.getWs j := by
  obtain ⟨l⟩ := st
  show Option.map _ (List.find? _ (l.map _)) = _
  rw [find?_put]
  by_cases h : j = id
  · subst h
    simp [Store.getWs, option_map_const]
    cases List.find? (fun p => p.1 == j) l <;> simp
  · simp [Store.getWs, h]

theorem getWs_modWs (st : Store) (id : String) (g : WsData → WsData) (j : String) :
    (st.modWs id g).getWs j =
      if j = id then (st.getWs j).map g else st.getWs j := by
  obtain ⟨l⟩ := st
  show Option.map _ (List.find? _ (l.map _)) = _
  rw [find?_mod]
  by_cases h : j = id
  · subst h
    simp [Store.getWs]
    cases List.find? (fun p => p.1 == j) l <;> simp
  · simp [Store.getWs, h]

theorem keys_putWs (st : Store) (id : String) (w : WsData) :
    (st.putWs id w).sheets.map (fun p => p.1) = st.sheets.map (fun p => p.1) := by
  obtain ⟨l⟩ := st
  induction l with
  | nil => rfl
  | cons p t ih =>
    by_cases h : p.1 = id <;>
      simpa [Store.putWs, h] using congrArg (fun r => (if p.1 = id then id else p.1) :: r) ih

theorem keys_modWs (st : Store) (id : String) (g : WsData → WsData) :
    (st.modWs id g).sheets.map (fun p => p.1) = st.sheets.map (fun p => p.1) := by
  obtain ⟨l⟩ := st
  induction l with
  | nil => rfl
  | cons p t ih =>
    by_cases h : p.1 = id <;>
      simpa [Store.modWs, h] using congrArg (fun r => p.1 :: r) ih

theorem sameFrame_putWs (st : Store) (id : String) (w : WsData)
    (h : ∀ w0, st.getWs id = some w0 → w0.defName = w.defName) :
    SameFrame st (st.putWs id w) := by
  refine ⟨keys_putWs st id w, fun j => ?_⟩
  unfold DefNameAt
  rw [getWs_putWs]
  by_cases hj : j = id
  · subst hj
    cases hw : st.getWs j with
    | none => simp [hw]
    | some w0 => simp [hw, h w0 hw]
  · simp [hj]

theorem sameFrame_modWs (st : Store) (id : String) (g : WsData → WsData)
    (h : ∀ w0, (g w0).defName = w0.defName) :
    SameFrame st (st.modWs id g) := by
  refine ⟨keys_modWs st id g, fun j => ?_⟩
  unfold DefNameAt
  rw [getWs_modWs]
  by_cases hj : j = id
  · subst hj
    cases hw : st.getWs j with
    | none => simp [hw]
    | some w0 => simp [hw, h w0]
  · simp [hj]

/-! ## Frame lemmas: dependent recomputation touches only computed fields -/

/-- Parents entries are well-typed: an entry recorded under a parent
definition name points to a worksheet of that definition (Go maintains
this because entries store actual pointers). -/
def ParentsTyped (st : Store) : Prop :=
  ∀ p ∈ st.sheets, ∀ e ∈ p.2.parents,
    DefNameAt st e.2.2 = none ∨ DefNameAt st e.2.2 = some e.1

/-- No `data` map stores the `Undefined` value. -/
def NoUndef (st : Store) : Prop :=
  ∀ p ∈ st.sheets, ∀ q ∈ p.2.data, q.2 ≠ Value.undefined

/-- No computed field of the definition of the worksheet `A.1` has
field index `A.2` (in particular the field at that position, if any,
is not computed). -/
def AvoidPos (defs : Defs) (st : Store) (A : String × Int) : Prop :=
  ∀ dn, DefNameAt st A.1 = some dn → ∀ d ∈ defs.defs, d.name = dn →
    ∀ g ∈ d.fields, g.index = A.2 → g.computedBy = none

/-- Well-formedness `NewDefinitions` guarantees: the `dependents`
lists reference only computed fields (worksheets.go 179-183), and each
field records the name of the definition holding it. -/
structure WfDefs (defs : Defs) : Prop where
  depsComputed : ∀ d ∈ defs.defs, ∀ f ∈ d.fields, ∀ e ∈ f.dependents, ∀ g,
    defs.fieldAt e.1 e.2 = some g → g.computedBy.isSome = true
  fieldDefNames : ∀ d ∈ defs.defs, ∀ f ∈ d.fields, f.defName = d.name

/-- The store `st2` is reached from `st` without disturbing the data
at position `A`, the id/definition-name frame, parents typing, or the
no-undefined-in-data invariant. -/
structure Keeps (A : String × Int) (st st2 : Store) : Prop where
  same : SameFrame st st2
  val : st2.valAt A.1 A.2 = st.valAt A.1 A.2
  pwt : ParentsTyped st → ParentsTyped st2
  noUndef : NoUndef st → NoUndef st2

theorem keeps_rfl (A : String × Int) (st : Store) : Keeps A st st :=
  ⟨SameFrame.refl st, rfl, id, id⟩

theorem keeps_trans {A : String × Int} {st1 st2 st3 : Store}
    (h1 : Keeps A st1 st2) (h2 : Keeps A st2 st3) : Keeps A st1 st3 :=
  ⟨sameFrame_trans h1.same h2.same, h2.val.trans h1.val, fun h => h2.pwt (h1.pwt h),
   fun h => h2.noUndef (h1.noUndef h)⟩

theorem AvoidPos.transport {defs : Defs} {st st2 : Store} {A : String × Int}
    (hsf : SameFrame st st2) (h : AvoidPos defs st A) : AvoidPos defs st2 A := by
  intro dn hdn
  exact h dn ((hsf.2 A.1).symm.trans hdn)

theorem getWs_mem {st : Store} {i : String} {w : WsData} (h : st.getWs i = some w) :
    (i, w) ∈ st.sheets := by
  unfold Store.getWs at h
  cases hf : st.sheets.find? (fun p => p.1 == i) with
  | none => rw [hf] at h; simp at h
  | some p =>
    rw [hf] at h
    simp at h
    have hm := List.mem_of_find?_eq_some hf
    have hp := List.find?_some hf
    simp at hp
    obtain ⟨p1, p2⟩ := p
    simp at hp h
    rw [hp, h] at hm
    exact hm

theorem fieldAt_spec {defs : Defs} {dn : String} {di : Int} {g : Field}
    (h : defs.fieldAt dn di = some g) :
    ∃ d, d ∈ defs.defs ∧ d.name = dn ∧ g ∈ d.fields ∧ g.index = di := by
  unfold Defs.fieldAt Defs.findDef at h
  cases hfd : defs.defs.find? (fun d => d.name == dn) with
  | none => rw [hfd] at h; simp at h
  | some d =>
    rw [hfd] at h
    simp at h
    have hdm := List.mem_of_find?_eq_some hfd
    have hdn := List.find?_some hfd
    simp at hdn
    unfold Definition.fieldByIndex at h
    have hgm := List.mem_of_find?_eq_some h
    have hgi := List.find?_some h
    simp at hgi
    exact ⟨d, hdm, hdn, hgm, hgi⟩

theorem alSet_mem {l : List (Int × Value)} {k : Int} {v : Value} {q : Int × Value}
    (h : q ∈ alSet l k v) : q ∈ l ∨ q = (k, v) := by
  induction l with
  | nil => simp [alSet] at h; right; exact h
  | cons p t ih =>
    by_cases h2 : p.1 = k
    · rw [show alSet (p :: t) k v = (k, v) :: t by
        obtain ⟨p1, p2⟩ := p; simp only [alSet] at *; rw [if_pos h2]] at h
      rcases List.mem_cons.mp h with h3 | h3
      · right; exact h3
      · left; exact List.mem_cons_of_mem _ h3
    · rw [show alSet (p :: t) k v = p :: alSet t k v by
        obtain ⟨p1, p2⟩ := p; simp only [alSet] at *; rw [if_neg h2]] at h
      rcases List.mem_cons.mp h with h3 | h3
      · left; exact h3 ▸ List.mem_cons_self p t
      · rcases ih h3 with h4 | h4
        · left; exact List.mem_cons_of_mem _ h4
        · right; exact h4

theorem alDel_mem {l : List (Int × Value)} {k : Int} {q : Int × Value}
    (h : q ∈ alDel l k) : q ∈ l := List.mem_of_mem_filter h

theorem parentsAdd_mem {ps : List (String × Int × String)} {e e2 : String × Int × String}
    (h : e2 ∈ parentsAdd ps e) : e2 ∈ ps ∨ e2 = e := by
  unfold parentsAdd at h
  by_cases h2 : e ∈ ps
  · rw [if_pos h2] at h; left; exact h
  · rw [if_neg h2] at h
    rcases List.mem_append.mp h with h3 | h3
    · left; exact h3
    · right; simpa using h3

theorem parentsRemove_mem {ps : List (String × Int × String)}
    {e e2 : String × Int × String} (h : e2 ∈ parentsRemove ps e) : e2 ∈ ps :=
  List.mem_of_mem_filter h

theorem mem_putWs {st : Store} {id : String} {w : WsData} {p : String × WsData}
    (h : p ∈ (st.putWs id w).sheets) :
    p = (id, w) ∨ p ∈ st.sheets := by
  obtain ⟨q, hq, hqp⟩ := List.mem_map.mp h
  by_cases h2 : q.1 = id
  · rw [if_pos h2] at hqp; left; exact hqp.symm
  · rw [if_neg h2] at hqp; right; exact hqp ▸ hq

theorem mem_modWs {st : Store} {id : String} {g : WsData → WsData} {p : String × WsData}
    (h : p ∈ (st.modWs id g).sheets) :
    (∃ q ∈ st.sheets, q.1 = id ∧ p = (q.1, g q.2)) ∨ p ∈ st.sheets := by
  obtain ⟨q, hq, hqp⟩ := List.mem_map.mp h
  by_cases h2 : q.1 = id
  · rw [if_pos h2] at hqp; left; exact ⟨q, hq, h2, hqp.symm⟩
  · rw [if_neg h2] at hqp; right; exact hqp ▸ hq

/-- A data write through `putWs` keeps the frame when it does not
touch position `A` and writes no `Undefined`. -/
theorem keeps_putWs_data {A : String × Int} {st : Store} {id : String} {w w2 : WsData}
    (hget : st.getWs id = some w)
    (hdef : w2.defName = w.defName)
    (hpar : w2.parents = w.parents)
    (hval : A.1 = id → alGet w2.data A.2 = alGet w.data A.2)
    (hnu : (∀ q ∈ w.data, q.2 ≠ Value.undefined) → ∀ q ∈ w2.data, q.2 ≠ Value.undefined) :
    Keeps A st (st.putWs id w2) := by
  have hsf : SameFrame st (st.putWs id w2) :=
    sameFrame_putWs st id w2 (fun w0 hw0 => by
      rw [hget] at hw0; cases hw0; exact hdef.symm)
  refine ⟨hsf, ?_, ?_, ?_⟩
  · unfold Store.valAt
    rw [getWs_putWs]
    by_cases h : A.1 = id
    · subst h
      rw [hget]
      simp [hval rfl]
    · rw [if_neg h]
  · intro hp p hpm e he
    rcases mem_putWs hpm with h | h
    · subst h
      rw [hpar] at he
      rcases hp (id, w) (getWs_mem hget) e he with h2 | h2
      · left; rw [hsf.2, h2]
      · right; rw [hsf.2, h2]
    · rcases hp p h e he with h2 | h2
      · left; rw [hsf.2, h2]
      · right; rw [hsf.2, h2]
  · intro hnd p hpm q hq
    rcases mem_putWs hpm with h | h
    · subst h
      exact hnu (hnd (id, w) (getWs_mem hget)) q hq
    · exact hnd p h q hq

/-- Adding a well-typed parents entry keeps the frame. -/
theorem keeps_modWs_parentsAdd (A : String × Int) (st : Store) (cid : String)
    (dn : String) (idx : Int) (pid : String)
    (hdn : DefNameAt st pid = none ∨ DefNameAt st pid = some dn) :
    Keeps A st (st.modWs cid
      (fun c => { c with parents := parentsAdd c.parents (dn, idx, pid) })) := by
  have hsf : SameFrame st (st.modWs cid
      (fun c => { c with parents := parentsAdd c.parents (dn, idx, pid) })) :=
    sameFrame_modWs st cid _ (fun w0 => rfl)
  refine ⟨hsf, ?_, ?_, ?_⟩
  · unfold Store.valAt
    rw [getWs_modWs]
    by_cases h : A.1 = cid
    · subst h
      cases hg : st.getWs A.1 <;> simp [hg]
    · rw [if_neg h]
  · intro hp p hpm e he
    rcases mem_modWs hpm with ⟨q, hq, hqid, hpq⟩ | h
    · subst hpq
      simp only at he
      rcases parentsAdd_mem he with h2 | h2
      · rcases hp q hq e h2 with h3 | h3
        · left; rw [hsf.2, h3]
        · right; rw [hsf.2, h3]
      · subst h2
        rcases hdn with h3 | h3
        · left; rw [hsf.2, h3]
        · right; rw [hsf.2, h3]
    · rcases hp p h e he with h2 | h2
      · left; rw [hsf.2, h2]
      · right; rw [hsf.2, h2]
  · intro hnd p hpm q hq
    rcases mem_modWs hpm with ⟨q2, hq2, hqid, hpq⟩ | h
    · subst hpq
      exact hnd q2 hq2 q hq
    · exact hnd p h q hq

/-- Removing a parents entry keeps the frame. -/
theorem keeps_modWs_parentsRemove (A : String × Int) (st : Store) (cid : String)
    (e0 : String × Int × String) :
    Keeps A st (st.modWs cid
      (fun c => { c with parents := parentsRemove c.parents e0 })) := by
  have hsf : SameFrame st (st.modWs cid
      (fun c => { c with parents := parentsRemove c.parents e0 })) :=
    sameFrame_modWs st cid _ (fun w0 => rfl)
  refine ⟨hsf, ?_, ?_, ?_⟩
  · unfold Store.valAt
    rw [getWs_modWs]
    by_cases h : A.1 = cid
    · subst h
      cases hg : st.getWs A.1 <;> simp [hg]
    · rw [if_neg h]
  · intro hp p hpm e he
    rcases mem_modWs hpm with ⟨q, hq, hqid, hpq⟩ | h
    · subst hpq
      simp only at he
      rcases hp q hq e (parentsRemove_mem he) with h2 | h2
      · left; rw [hsf.2, h2]
      · right; rw [hsf.2, h2]
    · rcases hp p h e he with h2 | h2
      · left; rw [hsf.2, h2]
      · right; rw [hsf.2, h2]
  · intro hnd p hpm q hq
    rcases mem_modWs hpm with ⟨q2, hq2, hqid, hpq⟩ | h
    · subst hpq
      exact hnd q2 hq2 q hq
    · exact hnd p h q hq

/-- The parents-addition fold of `handleDependentUpdates` keeps the frame. -/
theorem keeps_fold_add (A : String × Int) (cids : List String) (st : Store)
    (dn : String) (idx : Int) (pid : String)
    (hdn : DefNameAt st pid = none ∨ DefNameAt st pid = some dn) :
    Keeps A st (cids.foldl
      (fun s cid => s.modWs cid
        (fun c => { c with parents := parentsAdd c.parents (dn, idx, pid) })) st) := by
  induction cids generalizing st with
  | nil => exact keeps_rfl A st
  | cons cid rest ih =>
    rw [List.foldl_cons]
    have h1 := keeps_modWs_parentsAdd A st cid dn idx pid hdn
    refine keeps_trans h1 (ih _ ?_)
    rcases hdn with h | h
    · left; rw [h1.same.2, h]
    · right; rw [h1.same.2, h]

/-- The parents-removal fold of `handleDependentUpdates` keeps the frame. -/
theorem keeps_fold_remove (A : String × Int) (cids : List String) (st : Store)
    (e0 : String × Int × String) :
    Keeps A st (cids.foldl
      (fun s cid => s.modWs cid
        (fun c => { c with parents := parentsRemove c.parents e0 })) st) := by
  induction cids generalizing st with
  | nil => exact keeps_rfl A st
  | cons cid rest ih =>
    rw [List.foldl_cons]
    exact keeps_trans (keeps_modWs_parentsRemove A st cid e0) (ih _)

theorem writeData_defName (w : WsData) (k : Int) (v : Value) :
    (writeData w k v).defName = w.defName := by
  unfold writeData; split <;> rfl

theorem writeData_parents (w : WsData) (k : Int) (v : Value) :
    (writeData w k v).parents = w.parents := by
  unfold writeData; split <;> rfl

theorem writeData_get_other (w : WsData) (k : Int) (v : Value) (j : Int) (h : j ≠ k) :
    alGet (writeData w k v).data j = alGet w.data j := by
  unfold writeData
  split
  · show alGet (alDel w.data k) j = _
    rw [alGet_alDel, if_neg h]
  · show alGet (alSet w.data k v) j = _
    rw [alGet_alSet, if_neg h]

theorem isUndef_false_ne {v : Value} (h : v.isUndef = false) : v ≠ Value.undefined := by
  cases v <;> simp_all [Value.isUndef]

theorem writeData_mem {w : WsData} {k : Int} {v : Value} {q : Int × Value}
    (h : q ∈ (writeData w k v).data) :
    q ∈ w.data ∨ (q = (k, v) ∧ v ≠ Value.undefined) := by
  unfold writeData at h
  by_cases hu : v.isUndef
  · rw [if_pos hu] at h
    left; exact alDel_mem h
  · rw [if_neg hu] at h
    rcases alSet_mem h with h2 | h2
    · left; exact h2
    · right; exact ⟨h2, isUndef_false_ne (Bool.not_eq_true _ ▸ (by simpa using hu))⟩

theorem gatherTargets_none {st : Store} {id : String} (dn : String)
    (h : st.getWs id = none) : gatherTargets st id dn = [] := by
  unfold gatherTargets; rw [h]

theorem gatherTargets_same {st : Store} {id : String} {w : WsData} {dn : String}
    (h : st.getWs id = some w) (hdn : dn = w.defName) :
    gatherTargets st id dn = [id] := by
  unfold gatherTargets; rw [h]; simp [hdn]

theorem gatherTargets_parents {st : Store} {id : String} {w : WsData} {dn : String}
    (h : st.getWs id = some w) (hdn : ¬ dn = w.defName) :
    gatherTargets st id dn =
      (w.parents.filter (fun p => p.1 == dn)).map (fun p => p.2.2) := by
  unfold gatherTargets; rw [h]; simp [hdn]

/-- The gathered recomputation targets have the dependent's definition
(or do not resolve), because same-definition targets are the written
worksheet itself and cross-definition targets come from well-typed
parents entries. -/
theorem gatherTargets_typed {st : Store} {id dn : String}
    (hpwt : ParentsTyped st) :
    ∀ tid ∈ gatherTargets st id dn,
      DefNameAt st tid = none ∨ DefNameAt st tid = some dn := by
  intro tid htid
  cases hg : st.getWs id with
  | none => rw [gatherTargets_none dn hg] at htid; simp at htid
  | some w =>
    by_cases hdn : dn = w.defName
    · rw [gatherTargets_same hg hdn] at htid
      simp at htid
      subst htid
      right
      rw [DefNameAt, hg, hdn]
      rfl
    · rw [gatherTargets_parents hg hdn] at htid
      obtain ⟨p, hp, hptid⟩ := List.mem_map.mp htid
      have hpmem := List.mem_of_mem_filter hp
      have hpdn : p.1 = dn := by simpa using List.of_mem_filter hp
      rcases hpwt (id, w) (getWs_mem hg) p hpmem with h | h
      · left; rw [hptid] at h; exact h
      · right; rw [hptid, hpdn] at h; exact h

/-- Frame property of `setRec`: under well-formed definitions, a `set`
avoiding position `A` (or on an unknown worksheet) keeps the frame at
`A`. -/
def KeepsSet (defs : Defs) (fuel : Nat) : Prop :=
  ∀ (st : Store) (id : String) (g : Field) (v : Value) (A : String × Int),
    WfDefs defs → ParentsTyped st → AvoidPos defs st A →
    ((id, g.index) ≠ A ∨ st.getWs id = none) →
    (∀ e ∈ g.dependents, ∀ g2, defs.fieldAt e.1 e.2 = some g2 →
      g2.computedBy.isSome = true) →
    Keeps A st (setRec defs fuel st id g v).st

/-- Frame property of `handleDeps`. -/
def KeepsHandle (defs : Defs) (fuel : Nat) : Prop :=
  ∀ (st : Store) (id : String) (field : Field) (oldv newv : Value) (A : String × Int),
    WfDefs defs → ParentsTyped st → AvoidPos defs st A →
    (∀ e ∈ field.dependents, ∀ g2, defs.fieldAt e.1 e.2 = some g2 →
      g2.computedBy.isSome = true) →
    Keeps A st (handleDeps defs fuel st id field oldv newv).st

/-- Frame property of `depLoop`. -/
def KeepsDep (defs : Defs) (fuel : Nat) : Prop :=
  ∀ (st : Store) (id : String) (deps : List (String × Int)) (A : String × Int),
    WfDefs defs → ParentsTyped st → AvoidPos defs st A →
    (∀ e ∈ deps, ∀ g2, defs.fieldAt e.1 e.2 = some g2 →
      g2.computedBy.isSome = true) →
    Keeps A st (depLoop defs fuel st id deps).st

/-- Frame property of `targetLoop`. -/
def KeepsTarget (defs : Defs) (fuel : Nat) : Prop :=
  ∀ (st : Store) (depF : Field) (targets : List String) (A : String × Int),
    WfDefs defs → ParentsTyped st → AvoidPos defs st A →
    depF.computedBy.isSome = true →
    (∃ d ∈ defs.defs, d.name = depF.defName ∧ depF ∈ d.fields) →
    (∀ tid ∈ targets, DefNameAt st tid = none ∨ DefNameAt st tid = some depF.defName) →
    Keeps A st (targetLoop defs fuel st depF targets).st

theorem keepsTarget_zero (defs : Defs) : KeepsTarget defs 0 := by
  intro st depF targets A _ _ _ _ _ _
  cases targets with
  | nil => rw [targetLoop]; exact keeps_rfl A st
  | cons tid rest =>
    rw [targetLoop]
    cases hcb : depF.computedBy with
    | none => simp only [hcb]; exact keeps_rfl A st
    | some cb =>
      simp only [hcb]
      cases hcv : cb tid st with
      | error e => simp only [hcv]; exact keeps_rfl A st
      | ok v => simp only [hcv]; exact keeps_rfl A st

theorem keepsTarget_succ (defs : Defs) (fuel : Nat) (hset : KeepsSet defs fuel) :
    KeepsTarget defs (fuel + 1) := by
  intro st depF targets A hwf hpwt havoid hdf hdfin htgts
  induction targets generalizing st with
  | nil => rw [targetLoop]; exact keeps_rfl A st
  | cons tid rest ih =>
    rw [targetLoop]
    cases hcb : depF.computedBy with
    | none => simp only [hcb]; exact keeps_rfl A st
    | some cb =>
      simp only [hcb]
      cases hcv : cb tid st with
      | error e => simp only [hcv]; exact keeps_rfl A st
      | ok v =>
        simp only [hcv]
        have hA2 : (tid, depF.index) ≠ A ∨ st.getWs tid = none := by
          cases hg : st.getWs tid with
          | none => right; rfl
          | some sheet =>
            left
            intro hEq
            rcases htgts tid (List.mem_cons_self _ _) with h | h
            · rw [DefNameAt, hg] at h; simp at h
            · obtain ⟨d, hd, hdname, hdmem⟩ := hdfin
              have hA1 : A.1 = tid := by rw [← hEq]
              have hAi : A.2 = depF.index := by rw [← hEq]
              have hnone := havoid depF.defName (by rw [hA1]; exact h)
                d hd hdname depF hdmem hAi.symm
              rw [hnone] at hdf
              simp at hdf
        have hgdeps : ∀ e ∈ depF.dependents, ∀ g2,
            defs.fieldAt e.1 e.2 = some g2 → g2.computedBy.isSome = true := by
          obtain ⟨d, hd, _, hdmem⟩ := hdfin
          exact fun e he g2 hg2 => hwf.depsComputed d hd depF hdmem e he g2 hg2
        have h1 := hset st tid depF v A hwf hpwt havoid hA2 hgdeps
        cases hres : setRec defs fuel st tid depF v with
        | mk st2 evs err =>
          rw [hres] at h1
          cases err with
          | some e => simp only [hres]; exact h1
          | none =>
            simp only [hres]
            have h2 := ih st2 (h1.pwt hpwt) (havoid.transport h1.same)
              (fun tid2 htid2 => by
                rcases htgts tid2 (List.mem_cons_of_mem _ htid2) with h | h
                · left; rw [h1.same.2 tid2]; exact h
                · right; rw [h1.same.2 tid2]; exact h)
            cases hres2 : targetLoop defs (fuel + 1) st2 depF rest with
            | mk st3 evs2 r =>
              rw [hres2] at h2
              simp only [hres2]
              exact keeps_trans h1 h2

theorem keepsDep_of_target (defs : Defs) (fuel : Nat) (ht : KeepsTarget defs fuel) :
    KeepsDep defs fuel := by
  intro st id deps A hwf
  induction deps generalizing st with
  | nil =>
    intro hpwt havoid hdeps
    rw [depLoop]
    exact keeps_rfl A st
  | cons e rest ih =>
    intro hpwt havoid hdeps
    obtain ⟨dn, di⟩ := e
    rw [depLoop]
    cases hfa : defs.fieldAt dn di with
    | none => simp only [hfa]; exact keeps_rfl A st
    | some depF =>
      simp only [hfa]
      obtain ⟨d, hd, hdname2, hgmem, hgidx⟩ := fieldAt_spec hfa
      have hdfName : depF.defName = dn := by
        rw [hwf.fieldDefNames d hd depF hgmem, hdname2]
      have hdf : depF.computedBy.isSome = true :=
        hdeps (dn, di) (List.mem_cons_self _ _) depF hfa
      have hdfin : ∃ d2 ∈ defs.defs, d2.name = depF.defName ∧ depF ∈ d2.fields :=
        ⟨d, hd, by rw [hdfName, hdname2], hgmem⟩
      have htg : ∀ tid ∈ gatherTargets st id dn,
          DefNameAt st tid = none ∨ DefNameAt st tid = some depF.defName := by
        rw [hdfName]
        exact gatherTargets_typed hpwt
      have h1 := ht st depF (gatherTargets st id dn) A hwf hpwt havoid hdf hdfin htg
      cases hres : targetLoop defs fuel st depF (gatherTargets st id dn) with
      | mk st2 evs err =>
        rw [hres] at h1
        cases err with
        | some e2 => simp only [hres]; exact h1
        | none =>
          simp only [hres]
          have h2 := ih st2 (h1.pwt hpwt) (havoid.transport h1.same)
            (fun e2 he2 => hdeps e2 (List.mem_cons_of_mem _ he2))
          cases hres2 : depLoop defs fuel st2 id rest with
          | mk st3 evs2 r =>
            rw [hres2] at h2
            simp only [hres2]
            exact keeps_trans h1 h2

theorem keepsHandle_of_dep (defs : Defs) (fuel : Nat) (hd : KeepsDep defs fuel) :
    KeepsHandle defs fuel := by
  intro st id field oldv newv A hwf hpwt havoid hdeps
  rw [handleDeps]
  have h1 := hd st id field.dependents A hwf hpwt havoid hdeps
  cases hres : depLoop defs fuel st id field.dependents with
  | mk st2 evs err =>
    rw [hres] at h1
    cases err with
    | some e => simp only [hres]; exact h1
    | none =>
      simp only [hres]
      have hdn : DefNameAt st2 id = none ∨
          DefNameAt st2 id = some (match st2.getWs id with
            | some w => w.defName
            | none => "") := by
        cases hg : st2.getWs id with
        | none => left; rw [DefNameAt, hg]; rfl
        | some w => right; rw [DefNameAt, hg]; simp
      have h2 := keeps_fold_add A (extractChildWs newv) st2
        (match st2.getWs id with | some w => w.defName | none => "") field.index id hdn
      exact keeps_trans h1 (keeps_trans h2 (keeps_fold_remove A (extractChildWs oldv) _ _))

theorem keepsSet_of_handle (defs : Defs) (fuel : Nat) (hh : KeepsHandle defs fuel) :
    KeepsSet defs fuel := by
  intro st id g v A hwf hpwt havoid hA hgdeps
  rw [setRec]
  cases hw : st.getWs id with
  | none => simp only [hw]; exact keeps_rfl A st
  | some w =>
    simp only [hw]
    cases heq : ((alGet w.data g.index).getD Value.undefined).equal v with
    | true => simp only [heq, if_true]; exact keeps_rfl A st
    | false =>
      cases hass : v.assignableTo g.typ with
      | false =>
        simp only [heq, hass, Bool.false_eq_true, if_false, Bool.not_false, if_true]
        exact keeps_rfl A st
      | true =>
        simp only [heq, hass, Bool.false_eq_true, if_false, Bool.not_true]
        have hA2 : (id, g.index) ≠ A := by
          rcases hA with h | h
          · exact h
          · rw [hw] at h; cases h
        have h1 : Keeps A st (st.putWs id (writeData w g.index v)) := by
          refine keeps_putWs_data hw (writeData_defName w g.index v)
            (writeData_parents w g.index v) (fun hA1 => ?_) (fun hold q hq => ?_)
          · refine writeData_get_other w g.index v A.2 (fun hAi => ?_)
            exact hA2 (by rw [← hA1, ← hAi])
          · rcases writeData_mem hq with h2 | h2
            · exact hold q h2
            · rw [h2.1]; exact h2.2
        have h2 := hh (st.putWs id (writeData w g.index v)) id g
          ((alGet w.data g.index).getD Value.undefined) v A hwf
          (h1.pwt hpwt) (havoid.transport h1.same) hgdeps
        exact keeps_trans h1 h2

theorem keeps_all (defs : Defs) : ∀ fuel,
    KeepsSet defs fuel ∧ KeepsHandle defs fuel := by
  intro fuel
  induction fuel with
  | zero =>
    have hh := keepsHandle_of_dep defs 0 (keepsDep_of_target defs 0 (keepsTarget_zero defs))
    exact ⟨keepsSet_of_handle defs 0 hh, hh⟩
  | succ n ih =>
    have hh := keepsHandle_of_dep defs (n + 1)
      (keepsDep_of_target defs (n + 1) (keepsTarget_succ defs n ih.1))
    exact ⟨keepsSet_of_handle defs (n + 1) hh, hh⟩

/-! ## Case analysis of `set` and the rollback argument -/

theorem isUndef_true_eq {v : Value} (h : v.isUndef = true) : v = Value.undefined := by
  cases v <;> simp_all [Value.isUndef]

theorem getValue_nonslice (w : WsData) (field : Field) (h : field.typ.isSlice = false) :
    getValue w field = (alGet w.data field.index).getD Value.undefined := by
  unfold getValue
  cases halGet : alGet w.data field.index with
  | some v => rfl
  | none =>
    cases htyp : field.typ <;> simp_all [Typ.isSlice]

theorem writeData_get_self (w : WsData) (k : Int) (v : Value) :
    alGet (writeData w k v).data k = if v.isUndef then none else some v := by
  unfold writeData
  by_cases hu : v.isUndef = true
  · simp only [hu, if_true]
    show alGet (alDel w.data k) k = none
    rw [alGet_alDel, if_pos rfl]
  · simp only [hu, if_false, Bool.false_eq_true]
    show alGet (alSet w.data k v) k = some v
    rw [alGet_alSet, if_pos rfl]

theorem valAt_putWs_self {st : Store} {id : String} {w : WsData}
    (hget : st.getWs id = some w) (w2 : WsData) (j : Int) :
    (st.putWs id w2).valAt id j = alGet w2.data j := by
  unfold Store.valAt
  rw [getWs_putWs]
  simp [hget]

theorem getWs_of_sameFrame {st st2 : Store} {id : String} {w : WsData}
    (hsf : SameFrame st st2) (hw : st.getWs id = some w) :
    ∃ w2, st2.getWs id = some w2 ∧ w2.defName = w.defName := by
  have h := hsf.2 id
  rw [DefNameAt, DefNameAt, hw] at h
  cases hg : st2.getWs id with
  | none => rw [hg] at h; simp at h
  | some w2 =>
    rw [hg] at h
    simp at h
    exact ⟨w2, rfl, h⟩

theorem alGet_mem {l : List (Int × Value)} {j : Int} {v : Value}
    (h : alGet l j = some v) : (j, v) ∈ l := by
  unfold alGet at h
  cases hf : l.find? (fun p => p.1 == j) with
  | none => rw [hf] at h; simp at h
  | some p =>
    rw [hf] at h
    simp at h
    have hm := List.mem_of_find?_eq_some hf
    have hp := List.find?_some hf
    simp at hp
    obtain ⟨p1, p2⟩ := p
    simp at hp h
    rw [hp, h] at hm
    exact hm

theorem pwt_putWs {st : Store} {id : String} {w w2 : WsData}
    (hget : st.getWs id = some w)
    (hdef : w2.defName = w.defName)
    (hpar : w2.parents = w.parents)
    (hp : ParentsTyped st) : ParentsTyped (st.putWs id w2) := by
  have hsf : SameFrame st (st.putWs id w2) :=
    sameFrame_putWs st id w2 (fun w0 hw0 => by
      rw [hget] at hw0; cases hw0; exact hdef.symm)
  intro p hpm e he
  rcases mem_putWs hpm with h | h
  · subst h
    rw [hpar] at he
    rcases hp (id, w) (getWs_mem hget) e he with h2 | h2
    · left; rw [hsf.2, h2]
    · right; rw [hsf.2, h2]
  · rcases hp p h e he with h2 | h2
    · left; rw [hsf.2, h2]
    · right; rw [hsf.2, h2]

theorem noUndef_putWs {st : Store} {id : String} {w w2 : WsData}
    (hget : st.getWs id = some w)
    (hnu : (∀ q ∈ w.data, q.2 ≠ Value.undefined) → ∀ q ∈ w2.data, q.2 ≠ Value.undefined)
    (hnd : NoUndef st) : NoUndef (st.putWs id w2) := by
  intro p hpm q hq
  rcases mem_putWs hpm with h | h
  · subst h
    exact hnu (hnd (id, w) (getWs_mem hget)) q hq
  · exact hnd p h q hq

/-- Case analysis of `Worksheet.set`: the call is a pure no-op when the
new value equals the old, fails without effect when the value is not
assignable, and otherwise stores the value (deleting the key for
`Undefined`) and runs the dependent updates, which by the frame lemmas
never touch the written position again. -/
theorem setRec_cases (defs : Defs) (fuel : Nat) (st : Store) (id : String)
    (g : Field) (v : Value) (w : WsData)
    (hwf : WfDefs defs) (hpwt : ParentsTyped st)
    (havoid : AvoidPos defs st (id, g.index))
    (hgdeps : ∀ e ∈ g.dependents, ∀ g2, defs.fieldAt e.1 e.2 = some g2 →
      g2.computedBy.isSome = true)
    (hw : st.getWs id = some w) :
    (((alGet w.data g.index).getD Value.undefined).equal v = true ∧
      setRec defs fuel st id g v = ⟨st, [], none⟩) ∨
    (((alGet w.data g.index).getD Value.undefined).equal v = false ∧
      v.assignableTo g.typ = false ∧
      setRec defs fuel st id g v = ⟨st, [], some "cannot assign value"⟩) ∨
    (((alGet w.data g.index).getD Value.undefined).equal v = false ∧
      v.assignableTo g.typ = true ∧
      SameFrame st (setRec defs fuel st id g v).st ∧
      (setRec defs fuel st id g v).st.valAt id g.index =
        (if v.isUndef then none else some v) ∧
      ParentsTyped (setRec defs fuel st id g v).st ∧
      AvoidPos defs (setRec defs fuel st id g v).st (id, g.index) ∧
      (NoUndef st → NoUndef (setRec defs fuel st id g v).st)) := by
  cases heq : ((alGet w.data g.index).getD Value.undefined).equal v with
  | true =>
    left
    refine ⟨rfl, ?_⟩
    rw [setRec, hw]
    simp [heq]
  | false =>
    cases hass : v.assignableTo g.typ with
    | false =>
      right; left
      refine ⟨rfl, rfl, ?_⟩
      rw [setRec, hw]
      simp [heq, hass]
    | true =>
      right; right
      have hbody : setRec defs fuel st id g v =
          handleDeps defs fuel (st.putWs id (writeData w g.index v)) id g
            ((alGet w.data g.index).getD Value.undefined) v := by
        rw [setRec, hw]
        simp [heq, hass]
      have hsf1 : SameFrame st (st.putWs id (writeData w g.index v)) :=
        sameFrame_putWs st id _ (fun w0 hw0 => by
          rw [hw] at hw0; cases hw0; exact (writeData_defName w g.index v).symm)
      have hpwt1 : ParentsTyped (st.putWs id (writeData w g.index v)) :=
        pwt_putWs hw (writeData_defName w g.index v) (writeData_parents w g.index v) hpwt
      have hval1 : (st.putWs id (writeData w g.index v)).valAt id g.index =
          (if v.isUndef then none else some v) := by
        rw [valAt_putWs_self hw, writeData_get_self]
      have hnu1 : NoUndef st → NoUndef (st.putWs id (writeData w g.index v)) := by
        intro hnd
        refine noUndef_putWs hw (fun hold q hq => ?_) hnd
        rcases writeData_mem hq with h2 | h2
        · exact hold q h2
        · rw [h2.1]; exact h2.2
      have hkeep := (keeps_all defs fuel).2 (st.putWs id (writeData w g.index v)) id g
        ((alGet w.data g.index).getD Value.undefined) v (id, g.index) hwf hpwt1
        (havoid.transport hsf1) hgdeps
      rw [hbody]
      exact ⟨rfl, rfl, sameFrame_trans hsf1 hkeep.same, hkeep.val.trans hval1,
        hkeep.pwt hpwt1, (havoid.transport hsf1).transport hkeep.same,
        fun hnu => hkeep.noUndef (hnu1 hnu)⟩

/-- After `set` writes `prev` (the rollback call of a constrained
`Set`), reading the field back yields a value equal to `prev`. -/
theorem setRec_get_after (defs : Defs) (fuel : Nat) (st2 : Store) (id : String)
    (g : Field) (prev : Value) (w2 : WsData)
    (hwf : WfDefs defs) (hpwt2 : ParentsTyped st2)
    (havoid2 : AvoidPos defs st2 (id, g.index))
    (hgdeps : ∀ e ∈ g.dependents, ∀ g2, defs.fieldAt e.1 e.2 = some g2 →
      g2.computedBy.isSome = true)
    (hw2 : st2.getWs id = some w2)
    (hprevAss : prev.assignableTo g.typ = true) :
    ∃ w3, (setRec defs fuel st2 id g prev).st.getWs id = some w3 ∧
      ((alGet w3.data g.index).getD Value.undefined).equal prev = true ∧
      w3.defName = w2.defName := by
  rcases setRec_cases defs fuel st2 id g prev w2 hwf hpwt2 havoid2 hgdeps hw2 with
    ⟨heq, hres⟩ | ⟨_, hass, _⟩ | ⟨_, _, hsf, hval, _, _, _⟩
  · refine ⟨w2, ?_, ?_, rfl⟩
    · rw [hres]; exact hw2
    · exact heq
  · simp [hass] at hprevAss
  · obtain ⟨w3, hw3, hdef3⟩ := getWs_of_sameFrame hsf hw2
    refine ⟨w3, hw3, ?_, hdef3⟩
    have : alGet w3.data g.index = (if prev.isUndef then none else some prev) := by
      rw [← hval]
      unfold Store.valAt
      rw [hw3]
      rfl
    rw [this]
    by_cases hu : prev.isUndef = true
    · rw [if_pos hu, isUndef_true_eq hu]
      rfl
    · simp only [hu, if_false, Bool.false_eq_true]
      simp [equal_refl]

theorem GetOp_ok (defs : Defs) (st : Store) (wsId name : String) (w : WsData)
    (field : Field) (hw : st.getWs wsId = some w)
    (hf : fieldOf defs w name = some field) (hns : field.typ.isSlice = false) :
    GetOp defs st wsId name = .ok (getValue w field) := by
  unfold GetOp
  simp only [hw, hf]
  cases htyp : field.typ <;> simp_all [Typ.isSlice]

theorem IsSetOp_ok (defs : Defs) (st : Store) (wsId name : String) (w : WsData)
    (field : Field) (hw : st.getWs wsId = some w)
    (hf : fieldOf defs w name = some field) :
    IsSetOp defs st wsId name = .ok (alGet w.data field.index).isSome := by
  unfold IsSetOp
  simp only [hw, hf]

theorem fieldOf_defName {defs : Defs} {w w2 : WsData} (name : String)
    (h : w2.defName = w.defName) : fieldOf defs w2 name = fieldOf defs w name := by
  unfold fieldOf
  rw [h]

theorem fieldOf_spec {defs : Defs} {w : WsData} {name : String} {field : Field}
    (h : fieldOf defs w name = some field) :
    ∃ d, d ∈ defs.defs ∧ d.name = w.defName ∧ field ∈ d.fields := by
  unfold fieldOf Defs.findDef at h
  cases hfd : defs.defs.find? (fun d => d.name == w.defName) with
  | none => rw [hfd] at h; simp at h
  | some d =>
    rw [hfd] at h
    simp at h
    have hdm := List.mem_of_find?_eq_some hfd
    have hdn := List.find?_some hfd
    simp at hdn
    unfold Definition.fieldByName at h
    exact ⟨d, hdm, hdn, List.mem_of_find?_eq_some h⟩

/-- Evaluation of `Worksheet.Set` on a constrained, non-computed,
non-slice field: tentative write, constraint check, rollback on any
failure (the deferred function of worksheets.go 404-409). -/
theorem SetOp_constrained_eq (defs : Defs) (fuel : Nat) (st : Store)
    (wsId name : String) (v : Value) (w : WsData) (field : Field)
    (cb : String → Store → Except String Value)
    (hw : st.getWs wsId = some w) (hf : fieldOf defs w name = some field)
    (hcomp : field.computedBy = none) (hns : field.typ.isSlice = false)
    (hcb : field.constrainedBy = some cb) :
    SetOp defs fuel st wsId name v =
      (let r1 := setRec defs fuel st wsId field v
       match r1.err with
       | some e =>
         let r2 := setRec defs fuel r1.st wsId field (getValue w field)
         ⟨r2.st, r1.events ++ r2.events, some e⟩
       | none =>
         match cb wsId r1.st with
         | .error e =>
           let r2 := setRec defs fuel r1.st wsId field (getValue w field)
           ⟨r2.st, r1.events ++ r2.events, some e⟩
         | .ok cv =>
           if cv.isBoolTrue then ⟨r1.st, r1.events, none⟩
           else
             let r2 := setRec defs fuel r1.st wsId field (getValue w field)
             ⟨r2.st, r1.events ++ r2.events,
               some ("not a valid value for constrained field " ++ name)⟩) := by
  unfold SetOp
  simp only [hw, hf, hcomp, hns, hcb, Option.isSome_none, Bool.false_eq_true, if_false]

/-- **C1.** For every worksheet, every constrained field `f` and every
value `v`: if `Set(f, v)` returns an error — the constraint did not
evaluate to `Bool(true)` after the tentative write, the constraint
evaluation failed, or the tentative write itself failed — then after
the call `Get(f)` returns a value equal to the value `Get(f)` returned
before the call (the rollback of worksheets.go 400-425). -/
theorem constrained_set_rollback
    (defs : Defs) (fuel : Nat) (st : Store) (wsId name : String) (v : Value)
    (w : WsData) (field : Field)
    (hwf : WfDefs defs) (hpwt : ParentsTyped st)
    (havoid : AvoidPos defs st (wsId, field.index))
    (hw : st.getWs wsId = some w) (hf : fieldOf defs w name = some field)
    (hcomp : field.computedBy = none)
    (hns : field.typ.isSlice = false)
    (hcon : field.constrainedBy.isSome = true)
    (hprevAss : ((alGet w.data field.index).getD Value.undefined).assignableTo
      field.typ = true)
    (e : String)
    (herr : (SetOp defs fuel st wsId name v).err = some e) :
    GetOp defs st wsId name = .ok (getValue w field) ∧
    ∃ va, GetOp defs (SetOp defs fuel st wsId name v).st wsId name = .ok va ∧
      va.equal (getValue w field) = true := by
  have hgv : getValue w field = (alGet w.data field.index).getD Value.undefined :=
    getValue_nonslice w field hns
  have hgdeps : ∀ e2 ∈ field.dependents, ∀ g2, defs.fieldAt e2.1 e2.2 = some g2 →
      g2.computedBy.isSome = true := by
    obtain ⟨d, hd, _, hfm⟩ := fieldOf_spec hf
    exact fun e2 he2 g2 hg2 => hwf.depsComputed d hd field hfm e2 he2 g2 hg2
  refine ⟨GetOp_ok defs st wsId name w field hw hf hns, ?_⟩
  obtain ⟨cb, hcb⟩ := Option.isSome_iff_exists.mp hcon
  have hroll : ∀ st2 : Store, ParentsTyped st2 → AvoidPos defs st2 (wsId, field.index) →
      (∃ w2, st2.getWs wsId = some w2 ∧ w2.defName = w.defName) →
      ∃ va, GetOp defs (setRec defs fuel st2 wsId field (getValue w field)).st
          wsId name = .ok va ∧ va.equal (getValue w field) = true := by
    rintro st2 hpwt2 havoid2 ⟨w2, hw2, hdef2⟩
    obtain ⟨w3, hw3, heqv, hdef3⟩ := setRec_get_after defs fuel st2 wsId field
      (getValue w field) w2 hwf hpwt2 havoid2 hgdeps hw2 (by rw [hgv]; exact hprevAss)
    refine ⟨getValue w3 field, ?_, ?_⟩
    · refine GetOp_ok defs _ wsId name w3 field hw3 ?_ hns
      rw [fieldOf_defName name (hdef3.trans hdef2)]
      exact hf
    · rw [getValue_nonslice w3 field hns]
      exact heqv
  rw [SetOp_constrained_eq defs fuel st wsId name v w field cb hw hf hcomp hns hcb]
    at herr ⊢
  rcases setRec_cases defs fuel st wsId field v w hwf hpwt havoid hgdeps hw with
    ⟨heq, hres⟩ | ⟨heq, hass, hres⟩ | ⟨heq, hass, hsf, hval, hpwt1, havoid1, hnu1⟩
  · rw [hres] at herr ⊢
    simp only at herr ⊢
    cases hc : cb wsId st with
    | error e2 =>
      simp only [hc] at herr ⊢
      exact hroll st hpwt havoid ⟨w, hw, rfl⟩
    | ok cv =>
      simp only [hc] at herr ⊢
      cases hbt : cv.isBoolTrue with
      | true => simp [hbt] at herr
      | false =>
        simp only [hbt, Bool.false_eq_true, if_false] at herr ⊢
        exact hroll st hpwt havoid ⟨w, hw, rfl⟩
  · rw [hres] at herr ⊢
    simp only at herr ⊢
    exact hroll st hpwt havoid ⟨w, hw, rfl⟩
  · cases hr1 : setRec defs fuel st wsId field v with
    | mk st1 evs1 err1 =>
      rw [hr1] at herr hsf hval hpwt1 havoid1
      simp only at herr hsf hval hpwt1 havoid1 ⊢
      obtain ⟨w2, hw2, hdef2⟩ := getWs_of_sameFrame hsf hw
      cases err1 with
      | some e2 =>
        simp only at herr ⊢
        exact hroll st1 hpwt1 havoid1 ⟨w2, hw2, hdef2⟩
      | none =>
        simp only at herr ⊢
        cases hc : cb wsId st1 with
        | error e2 =>
          simp only [hc] at herr ⊢
          exact hroll st1 hpwt1 havoid1 ⟨w2, hw2, hdef2⟩
        | ok cv =>
          simp only [hc] at herr ⊢
          cases hbt : cv.isBoolTrue with
          | true => simp [hbt] at herr
          | false =>
            simp only [hbt, Bool.false_eq_true, if_false] at herr ⊢
            exact hroll st1 hpwt1 havoid1 ⟨w2, hw2, hdef2⟩

/-- Evaluation of `Worksheet.Set` on an unconstrained, non-computed,
non-slice field: a plain `set`. -/
theorem SetOp_unconstrained_eq (defs : Defs) (fuel : Nat) (st : Store)
    (wsId name : String) (v : Value) (w : WsData) (field : Field)
    (hw : st.getWs wsId = some w) (hf : fieldOf defs w name = some field)
    (hcomp : field.computedBy = none) (hns : field.typ.isSlice = false)
    (hcb : field.constrainedBy = none) :
    SetOp defs fuel st wsId name v = setRec defs fuel st wsId field v := by
  unfold SetOp
  simp only [hw, hf, hcomp, hns, hcb, Option.isSome_none, Bool.false_eq_true, if_false]

/-- A successful `set` of `Undefined` leaves the field's key absent
from `data` and preserves the no-undefined invariant. -/
theorem setRec_undefined_result (defs : Defs) (fuel : Nat) (st : Store)
    (wsId : String) (field : Field) (w : WsData)
    (hwf : WfDefs defs) (hpwt : ParentsTyped st)
    (havoid : AvoidPos defs st (wsId, field.index))
    (hgdeps : ∀ e ∈ field.dependents, ∀ g2, defs.fieldAt e.1 e.2 = some g2 →
      g2.computedBy.isSome = true)
    (hw : st.getWs wsId = some w) (hnu : NoUndef st) :
    ∃ w3, (setRec defs fuel st wsId field Value.undefined).st.getWs wsId = some w3 ∧
      alGet w3.data field.index = none ∧ w3.defName = w.defName ∧
      NoUndef (setRec defs fuel st wsId field Value.undefined).st := by
  rcases setRec_cases defs fuel st wsId field Value.undefined w hwf hpwt havoid
    hgdeps hw with
    ⟨heq, hres⟩ | ⟨_, hass, _⟩ | ⟨_, _, hsf, hval, _, _, hnu1⟩
  · refine ⟨w, by rw [hres]; exact hw, ?_, rfl, by rw [hres]; exact hnu⟩
    cases halGet : alGet w.data field.index with
    | none => rfl
    | some vv =>
      rw [halGet] at heq
      simp only [Option.getD_some] at heq
      have hvv : vv = Value.undefined := equal_undefined_right vv heq
      exact absurd (hnu (wsId, w) (getWs_mem hw) (field.index, vv) (alGet_mem halGet))
        (by rw [hvv]; simp)
  · rw [undefined_assignableTo] at hass; cases hass
  · obtain ⟨w3, hw3, hdef3⟩ := getWs_of_sameFrame hsf hw
    refine ⟨w3, hw3, ?_, hdef3, hnu1 hnu⟩
    have : (setRec defs fuel st wsId field Value.undefined).st.valAt wsId field.index
        = none := by
      rw [hval]; rfl
    unfold Store.valAt at this
    rw [hw3] at this
    exact this

/-- **C10.** The data map of a worksheet never maps a field index to
`Undefined`: a successful write of `Undefined` deletes the key instead
of storing it (worksheets.go 452-457), so after `Set(n, Undefined)`
succeeds on a non-slice field, `IsSet(n)` returns false while `Get(n)`
returns `Undefined`, and no field of any worksheet stores `Undefined`
afterwards. -/
theorem set_undefined_deletes
    (defs : Defs) (fuel : Nat) (st : Store) (wsId name : String)
    (w : WsData) (field : Field)
    (hwf : WfDefs defs) (hpwt : ParentsTyped st)
    (havoid : AvoidPos defs st (wsId, field.index))
    (hw : st.getWs wsId = some w) (hf : fieldOf defs w name = some field)
    (hns : field.typ.isSlice = false)
    (hnu : NoUndef st)
    (herr : (SetOp defs fuel st wsId name Value.undefined).err = none) :
    IsSetOp defs (SetOp defs fuel st wsId name Value.undefined).st wsId name
      = .ok false ∧
    GetOp defs (SetOp defs fuel st wsId name Value.undefined).st wsId name
      = .ok Value.undefined ∧
    NoUndef (SetOp defs fuel st wsId name Value.undefined).st := by
  have hgdeps : ∀ e2 ∈ field.dependents, ∀ g2, defs.fieldAt e2.1 e2.2 = some g2 →
      g2.computedBy.isSome = true := by
    obtain ⟨d, hd, _, hfm⟩ := fieldOf_spec hf
    exact fun e2 he2 g2 hg2 => hwf.depsComputed d hd field hfm e2 he2 g2 hg2
  have hmain : ∀ st4 : Store,
      (∃ w3, st4.getWs wsId = some w3 ∧ alGet w3.data field.index = none ∧
        w3.defName = w.defName ∧ NoUndef st4) →
      IsSetOp defs st4 wsId name = .ok false ∧
      GetOp defs st4 wsId name = .ok Value.undefined ∧ NoUndef st4 := by
    rintro st4 ⟨w3, hw3, hnone, hdef3, hnu4⟩
    have hf3 : fieldOf defs w3 name = some field := by
      rw [fieldOf_defName name hdef3]; exact hf
    refine ⟨?_, ?_, hnu4⟩
    · rw [IsSetOp_ok defs st4 wsId name w3 field hw3 hf3, hnone]
      rfl
    · rw [GetOp_ok defs st4 wsId name w3 field hw3 hf3 hns,
        getValue_nonslice w3 field hns, hnone]
      rfl
  cases hcm : field.computedBy with
  | some c =>
    rw [show SetOp defs fuel st wsId name Value.undefined
        = ⟨st, [], some "cannot assign to computed field"⟩ by
      unfold SetOp; simp [hw, hf, hcm]] at herr
    cases herr
  | none =>
    cases hcb : field.constrainedBy with
    | none =>
      rw [SetOp_unconstrained_eq defs fuel st wsId name Value.undefined w field
        hw hf hcm hns hcb] at herr ⊢
      exact hmain _ (setRec_undefined_result defs fuel st wsId field w hwf hpwt
        havoid hgdeps hw hnu)
    | some cb =>
      rw [SetOp_constrained_eq defs fuel st wsId name Value.undefined w field cb
        hw hf hcm hns hcb] at herr ⊢
      cases hr1 : setRec defs fuel st wsId field Value.undefined with
      | mk st1 evs1 err1 =>
        obtain ⟨w3, hw3, hnone, hdef3, hnu3⟩ :=
          setRec_undefined_result defs fuel st wsId field w hwf hpwt havoid
            hgdeps hw hnu
        rw [hr1] at herr hw3 hnu3
        simp only at herr hw3 hnu3 ⊢
        cases err1 with
        | some e2 => simp at herr
        | none =>
          simp only at herr ⊢
          cases hc : cb wsId st1 with
          | error e2 => simp [hc] at herr
          | ok cv =>
            simp only [hc] at herr ⊢
            cases hbt : cv.isBoolTrue with
            | true =>
              simp only [hbt, if_true] at herr ⊢
              exact hmain st1 ⟨w3, hw3, hnone, hdef3, hnu3⟩
            | false =>
              simp [hbt] at herr

/-- **C5 (amended).** For every worksheet, every non-slice,
non-computed and — as the counterexample forces — non-constrained
field `f`, and every value `v`: if `v` equals the current value of
`f`, then `Set(f, v)` returns nil and leaves the store (hence every
field of every worksheet's data and all parents maps) unchanged and
triggers no dependent recomputation.  On a constrained field the
constraint is re-evaluated even for an equal value and its failure is
reported as an error. -/
theorem set_equal_value_noop (defs : Defs) (fuel : Nat) (st : Store)
    (wsId name : String) (v : Value) (w : WsData) (field : Field)
    (hw : st.getWs wsId = some w) (hf : fieldOf defs w name = some field)
    (hcomp : field.computedBy = none) (hns : field.typ.isSlice = false)
    (hcb : field.constrainedBy = none)
    (heq : (getValue w field).equal v = true) :
    SetOp defs fuel st wsId name v = ⟨st, [], none⟩ := by
  rw [SetOp_unconstrained_eq defs fuel st wsId name v w field hw hf hcomp hns hcb]
  rw [setRec, hw]
  have h2 : ((alGet w.data field.index).getD Value.undefined).equal v = true := by
    rw [← getValue_nonslice w field hns]
    exact heq
  simp [h2]

/-- Worksheet used by the C5 counterexample: a definition `d` with a
single constrained field `lim` (index 5) whose constraint — abstracted
to its compute function, as `NewDefinitions` would install — evaluates
to `Bool(false)` on the current state. -/
def c5cb : String → Store → Except String Value := fun _ _ => .ok (.bool false)

def c5field : Field := ⟨5, "lim", .number 0, "d", none, some c5cb, []⟩

def c5defs : Defs := ⟨[⟨"d", [c5field]⟩]⟩

def c5w : WsData := ⟨"d", [(5, .number 3 0)], []⟩

def c5store : Store := ⟨[("w", c5w)]⟩

/-- **C5 counterexample.** `lim` is a non-slice, non-computed field
and the written value equals its current value, yet `Set` does not
return nil: the field is constrained, so the constraint is evaluated
even on an equal-value write and its failure is returned as an error
(while the state stays unchanged). -/
theorem set_equal_value_noop_cex :
    c5field.computedBy = none ∧
    c5field.typ.isSlice = false ∧
    (getValue c5w c5field).equal (.number 3 0) = true ∧
    (SetOp c5defs 1 c5store "w" "lim" (.number 3 0)).err
      = some "not a valid value for constrained field lim" := by
  refine ⟨rfl, rfl, rfl, ?_⟩
  simp [SetOp, setRec, c5defs, c5store, c5w, c5field, c5cb, fieldOf, Defs.findDef,
    Definition.fieldByName, Store.getWs, alGet, getValue, Value.equal, Value.isBoolTrue,
    List.find?, Typ.isSlice]

/-- Fixture for the C5 witness: an unconstrained text field holding
`"A"`. -/
def c5uField : Field := ⟨7, "name", .text, "u", none, none, []⟩

def c5uDefs : Defs := ⟨[⟨"u", [c5uField]⟩]⟩

def c5uW : WsData := ⟨"u", [(7, .text "A")], []⟩

def c5uStore : Store := ⟨[("x", c5uW)]⟩

/-- Witness for C5: on a concrete unconstrained field holding `"A"`,
writing `"A"` again is a complete no-op. -/
theorem set_equal_value_noop_witness :
    SetOp c5uDefs 3 c5uStore "x" "name" (.text "A") = ⟨c5uStore, [], none⟩ :=
  set_equal_value_noop c5uDefs 3 c5uStore "x" "name" (.text "A") c5uW c5uField
    rfl rfl rfl rfl rfl rfl

/-- **C6.** `Unset(name)` is literally `Set(name, Undefined)` when
`name` names a non-slice field, and returns an error without touching
the state when `name` names a slice field (worksheets.go 474-481). -/
theorem unset_equiv_set_undefined (defs : Defs) (fuel : Nat) (st : Store)
    (wsId name : String) (w : WsData) (field : Field)
    (hw : st.getWs wsId = some w) (hf : fieldOf defs w name = some field) :
    (field.typ.isSlice = false →
      UnsetOp defs fuel st wsId name = SetOp defs fuel st wsId name Value.undefined) ∧
    (field.typ.isSlice = true →
      UnsetOp defs fuel st wsId name
        = ⟨st, [], some "Unset on slice field names, must use Del"⟩) := by
  constructor <;> intro h <;> unfold UnsetOp <;> simp [hw, hf, h]

/-- Fixture for the C6 witness: a definition with a text field and a
slice field. -/
def c6fName : Field := ⟨1, "name", .text, "p", none, none, []⟩

def c6fKids : Field := ⟨2, "kids", .slice .text, "p", none, none, []⟩

def c6Defs : Defs := ⟨[⟨"p", [c6fName, c6fKids]⟩]⟩

def c6W : WsData := ⟨"p", [(1, .text "A")], []⟩

def c6Store : Store := ⟨[("x", c6W)]⟩

/-- Witness for C6 at a concrete worksheet: equality with
`Set(name, Undefined)` on the text field and the state-preserving
error on the slice field. -/
theorem unset_equiv_set_undefined_witness :
    UnsetOp c6Defs 2 c6Store "x" "name"
      = SetOp c6Defs 2 c6Store "x" "name" Value.undefined ∧
    UnsetOp c6Defs 2 c6Store "x" "kids"
      = ⟨c6Store, [], some "Unset on slice field names, must use Del"⟩ :=
  ⟨(unset_equiv_set_undefined c6Defs 2 c6Store "x" "name" c6W c6fName rfl rfl).1 rfl,
   (unset_equiv_set_undefined c6Defs 2 c6Store "x" "kids" c6W c6fKids rfl rfl).2 rfl⟩

/-- Fixture for the C1 witness: a constrained number field holding 3;
the constraint (abstracted to its compute function) always rejects, so
writing 4 is tentatively stored and rolled back. -/
def rbCb : String → Store → Except String Value := fun _ _ => .ok (.bool false)

def rbField : Field := ⟨5, "lim", .number 0, "d", none, some rbCb, []⟩

def rbDefs : Defs := ⟨[⟨"d", [rbField]⟩]⟩

def rbW : WsData := ⟨"d", [(5, .number 3 0)], []⟩

def rbStore : Store := ⟨[("w", rbW)]⟩

theorem rbDefs_wf : WfDefs rbDefs := by
  refine ⟨?_, ?_⟩
  · intro d hd f hf e he g hg
    simp [rbDefs] at hd
    subst hd
    simp at hf
    subst hf
    simp [rbField] at he
  · intro d hd f hf
    simp [rbDefs] at hd
    subst hd
    simp at hf
    subst hf
    rfl

theorem rbStore_pwt : ParentsTyped rbStore := by
  intro p hp e he
  simp [rbStore] at hp
  subst hp
  simp [rbW] at he

theorem rbStore_avoid : AvoidPos rbDefs rbStore ("w", 5) := by
  intro dn hdn d hd g hg
  simp [DefNameAt, rbStore, Store.getWs, List.find?, rbW] at hdn
  simp [rbDefs] at hd
  subst hd
  intro hgm hgi
  simp at hgm
  subst hgm
  rfl

/-- Witness for C1: on the concrete constrained field, the failed
write of 4 leaves `Get` returning a value equal to the prior 3. -/
theorem constrained_set_rollback_witness :
    GetOp rbDefs rbStore "w" "lim" = .ok (getValue rbW rbField) ∧
    ∃ va, GetOp rbDefs (SetOp rbDefs 2 rbStore "w" "lim" (.number 4 0)).st "w" "lim"
        = .ok va ∧ va.equal (getValue rbW rbField) = true :=
  constrained_set_rollback rbDefs 2 rbStore "w" "lim" (.number 4 0) rbW rbField
    rbDefs_wf rbStore_pwt rbStore_avoid rfl rfl rfl rfl rfl rfl
    "not a valid value for constrained field lim"
    (by simp [SetOp, setRec, handleDeps, depLoop, rbDefs, rbStore, rbW, rbField,
      rbCb, fieldOf, Defs.findDef, Definition.fieldByName, Store.getWs, alGet,
      getValue, Value.equal, Value.isBoolTrue, List.find?, Typ.isSlice,
      Value.assignableTo, writeData, Value.isUndef, alSet, Store.putWs,
      extractChildWs])

/-- Fixture for the C10 witness: a plain text field holding `"B"`. -/
def udField : Field := ⟨9, "name", .text, "e", none, none, []⟩

def udDefs : Defs := ⟨[⟨"e", [udField]⟩]⟩

def udW : WsData := ⟨"e", [(9, .text "B")], []⟩

def udStore : Store := ⟨[("y", udW)]⟩

theorem udDefs_wf : WfDefs udDefs := by
  refine ⟨?_, ?_⟩
  · intro d hd f hf e he g hg
    simp [udDefs] at hd
    subst hd
    simp at hf
    subst hf
    simp [udField] at he
  · intro d hd f hf
    simp [udDefs] at hd
    subst hd
    simp at hf
    subst hf
    rfl

theorem udStore_pwt : ParentsTyped udStore := by
  intro p hp e he
  simp [udStore] at hp
  subst hp
  simp [udW] at he

theorem udStore_avoid : AvoidPos udDefs udStore ("y", 9) := by
  intro dn hdn d hd g hg
  simp [udDefs] at hd
  subst hd
  intro hgm hgi
  simp at hgm
  subst hgm
  rfl

theorem udStore_noUndef : NoUndef udStore := by
  intro p hp q hq
  simp [udStore] at hp
  subst hp
  simp [udW] at hq
  subst hq
  simp

/-- Witness for C10: unsetting the concrete text field deletes its
key and `Get` returns `Undefined`. -/
theorem set_undefined_deletes_witness :
    IsSetOp udDefs (SetOp udDefs 1 udStore "y" "name" Value.undefined).st "y" "name"
      = .ok false ∧
    GetOp udDefs (SetOp udDefs 1 udStore "y" "name" Value.undefined).st "y" "name"
      = .ok Value.undefined ∧
    NoUndef (SetOp udDefs 1 udStore "y" "name" Value.undefined).st :=
  set_undefined_deletes udDefs 1 udStore "y" "name" udW udField
    udDefs_wf udStore_pwt udStore_avoid rfl rfl rfl udStore_noUndef
    (by simp [SetOp, setRec, handleDeps, depLoop, udDefs, udStore, udW, udField,
      fieldOf, Defs.findDef, Definition.fieldByName, Store.getWs, alGet,
      getValue, Value.equal, List.find?, Typ.isSlice, Value.assignableTo,
      writeData, Value.isUndef, alDel, Store.putWs, extractChildWs])

/-! ## Recomputation events of a write (claim C2) -/

/-- Every stored value at field index `j` of any worksheet references
no child worksheets (true of computed fields holding scalar results). -/
def ScalarAt (st : Store) (j : Int) : Prop :=
  ∀ i w2, st.getWs i = some w2 →
    extractChildWs ((alGet w2.data j).getD Value.undefined) = []

/-- All parents maps agree between two stores. -/
def ParentsSame (st st2 : Store) : Prop := ∀ i, ParentsAt st2 i = ParentsAt st i

theorem gatherTargets_congr {st st2 : Store} {wsId : String} (dn : String)
    (hsf : SameFrame st st2)
    (hdata : ∀ i w2 w3, st.getWs i = some w2 → st2.getWs i = some w3 →
      w3.parents = w2.parents) :
    gatherTargets st2 wsId dn = gatherTargets st wsId dn := by
  cases hg : st.getWs wsId with
  | none =>
    cases hg2 : st2.getWs wsId with
    | none => rw [gatherTargets_none dn hg, gatherTargets_none dn hg2]
    | some w3 =>
      have h := hsf.2 wsId
      rw [DefNameAt, DefNameAt, hg, hg2] at h
      simp at h
  | some w2 =>
    cases hg2 : st2.getWs wsId with
    | none =>
      have h := hsf.2 wsId
      rw [DefNameAt, DefNameAt, hg, hg2] at h
      simp at h
    | some w3 =>
      have hdn : w3.defName = w2.defName := by
        have h := hsf.2 wsId
        rw [DefNameAt, DefNameAt, hg, hg2] at h
        simpa using h
      have hpw : w3.parents = w2.parents := hdata wsId w2 w3 hg hg2
      by_cases hb : dn = w2.defName
      · rw [gatherTargets_same hg hb, gatherTargets_same hg2 (by rw [hdn]; exact hb)]
      · rw [gatherTargets_parents hg hb,
          gatherTargets_parents hg2 (by rw [hdn]; exact hb), hpw]

/-- A cascaded `set` of a scalar value into a dependent-free computed
field: no events, no parents change, data changed at most at the
written position, which stays scalar. -/
theorem cascade_set_simple (defs : Defs) (fuel : Nat) (st : Store) (tid : String)
    (g : Field) (v2 : Value)
    (hgdeps : g.dependents = [])
    (hv2 : extractChildWs v2 = [])
    (hold : ∀ w2, st.getWs tid = some w2 →
      extractChildWs ((alGet w2.data g.index).getD Value.undefined) = []) :
    (setRec defs fuel st tid g v2).events = [] ∧
    SameFrame st (setRec defs fuel st tid g v2).st ∧
    ParentsSame st (setRec defs fuel st tid g v2).st ∧
    (∀ i w2 w3, st.getWs i = some w2 → (setRec defs fuel st tid g v2).st.getWs i
      = some w3 → w3.parents = w2.parents) ∧
    (∀ i w2 w3, st.getWs i = some w2 → (setRec defs fuel st tid g v2).st.getWs i
      = some w3 → ∀ j, ¬(i = tid ∧ j = g.index) → alGet w3.data j = alGet w2.data j) ∧
    (∀ w3, (setRec defs fuel st tid g v2).st.getWs tid = some w3 →
      extractChildWs ((alGet w3.data g.index).getD Value.undefined) = []) := by
  have hsame : ∀ r : SetResult, r.st = st →
      SameFrame st r.st ∧ ParentsSame st r.st ∧
      (∀ i w2 w3, st.getWs i = some w2 → r.st.getWs i = some w3 →
        w3.parents = w2.parents) ∧
      (∀ i w2 w3, st.getWs i = some w2 → r.st.getWs i = some w3 →
        ∀ j, ¬(i = tid ∧ j = g.index) → alGet w3.data j = alGet w2.data j) ∧
      (∀ w3, r.st.getWs tid = some w3 →
        extractChildWs ((alGet w3.data g.index).getD Value.undefined) = []) := by
    intro r hr
    rw [hr]
    refine ⟨SameFrame.refl st, fun i => rfl, ?_, ?_, ?_⟩
    · intro i w2 w3 h2 h3
      rw [h2] at h3; cases h3; rfl
    · intro i w2 w3 h2 h3 j hj
      rw [h2] at h3; cases h3; rfl
    · intro w3 h3
      exact hold w3 h3
  cases hw : st.getWs tid with
  | none =>
    have hres : setRec defs fuel st tid g v2 = ⟨st, [], some "unknown worksheet"⟩ := by
      rw [setRec, hw]
    exact ⟨by rw [hres], (hsame _ (by rw [hres])).1, (hsame _ (by rw [hres])).2.1,
      (hsame _ (by rw [hres])).2.2.1, (hsame _ (by rw [hres])).2.2.2.1,
      (hsame _ (by rw [hres])).2.2.2.2⟩
  | some w =>
    cases heq : ((alGet w.data g.index).getD Value.undefined).equal v2 with
    | true =>
      have hres : setRec defs fuel st tid g v2 = ⟨st, [], none⟩ := by
        rw [setRec, hw]
        simp [heq]
      exact ⟨by rw [hres], (hsame _ (by rw [hres])).1, (hsame _ (by rw [hres])).2.1,
        (hsame _ (by rw [hres])).2.2.1, (hsame _ (by rw [hres])).2.2.2.1,
        (hsame _ (by rw [hres])).2.2.2.2⟩
    | false =>
      cases hass : v2.assignableTo g.typ with
      | false =>
        have hres : setRec defs fuel st tid g v2 = ⟨st, [], some "cannot assign value"⟩ := by
          rw [setRec, hw]
          simp [heq, hass]
        exact ⟨by rw [hres], (hsame _ (by rw [hres])).1, (hsame _ (by rw [hres])).2.1,
          (hsame _ (by rw [hres])).2.2.1, (hsame _ (by rw [hres])).2.2.2.1,
          (hsame _ (by rw [hres])).2.2.2.2⟩
      | true =>
        have hres : setRec defs fuel st tid g v2 =
            ⟨st.putWs tid (writeData w g.index v2), [], none⟩ := by
          rw [setRec, hw]
          simp only [heq, hass, Bool.false_eq_true, if_false, Bool.not_true,
            Bool.not_false, if_true]
          rw [handleDeps, hgdeps, depLoop]
          simp only [hv2, hold w hw, List.foldl_nil]
        have hget : ∀ i, (st.putWs tid (writeData w g.index v2)).getWs i =
            if i = tid then some (writeData w g.index v2) else st.getWs i := by
          intro i
          rw [getWs_putWs]
          by_cases hi : i = tid
          · simp [hi, hw]
          · simp [hi]
        rw [hres]
        refine ⟨rfl, ?_, ?_, ?_, ?_, ?_⟩
        · exact sameFrame_putWs st tid _ (fun w0 hw0 => by
            rw [hw] at hw0; cases hw0; exact (writeData_defName w g.index v2).symm)
        · intro i
          rw [ParentsAt, ParentsAt]
          show ((st.putWs tid (writeData w g.index v2)).getWs i).map _ = _
          rw [hget i]
          by_cases hi : i = tid
          · subst hi
            rw [if_pos rfl, hw]
            simp [writeData_parents]
          · rw [if_neg hi]
        · intro i w2 w3 h2 h3
          rw [hget i] at h3
          by_cases hi : i = tid
          · rw [if_pos hi] at h3
            cases h3
            rw [hi, hw] at h2
            cases h2
            exact writeData_parents w g.index v2
          · rw [if_neg hi] at h3
            rw [h2] at h3; cases h3; rfl
        · intro i w2 w3 h2 h3 j hj
          rw [hget i] at h3
          by_cases hi : i = tid
          · rw [if_pos hi] at h3
            cases h3
            rw [hi, hw] at h2
            cases h2
            exact writeData_get_other w g.index v2 j (fun hji => hj ⟨hi, hji⟩)
          · rw [if_neg hi] at h3
            rw [h2] at h3; cases h3; rfl
        · intro w3 h3
          rw [hget tid, if_pos rfl] at h3
          cases h3
          rw [writeData_get_self]
          by_cases hu : v2.isUndef = true
          · simp [hu, extractChildWs]
          · simp only [hu, Bool.false_eq_true, if_false, Option.getD_some]
            exact hv2

/-- The store evolution of a run of cascaded recomputations: same
frame, untouched parents everywhere, and data untouched outside the
excluded index set `ex`. -/
def CascadeRelS (st st2 : Store) (ex : Int → Prop) : Prop :=
  SameFrame st st2 ∧
  (∀ i w2 w3, st.getWs i = some w2 → st2.getWs i = some w3 →
    w3.parents = w2.parents ∧ ∀ j, ¬ ex j → alGet w3.data j = alGet w2.data j)

theorem cascadeRelS_rfl (st : Store) (ex : Int → Prop) : CascadeRelS st st ex := by
  refine ⟨SameFrame.refl st, ?_⟩
  intro i w2 w3 h2 h3
  rw [h2] at h3
  cases h3
  exact ⟨rfl, fun j _ => rfl⟩

theorem getWs_exists_of_sameFrame_rev {st st2 : Store} {i : String} {w3 : WsData}
    (hsf : SameFrame st st2) (h3 : st2.getWs i = some w3) :
    ∃ w2, st.getWs i = some w2 := by
  have h := hsf.2 i
  rw [DefNameAt, DefNameAt, h3] at h
  cases hg : st.getWs i with
  | none => rw [hg] at h; simp at h
  | some w2 => exact ⟨w2, rfl⟩

theorem cascadeRelS_trans {st st2 st3 : Store} {ex : Int → Prop}
    (h1 : CascadeRelS st st2 ex) (h2 : CascadeRelS st2 st3 ex) :
    CascadeRelS st st3 ex := by
  refine ⟨sameFrame_trans h1.1 h2.1, ?_⟩
  intro i w2 w4 hw2 hw4
  obtain ⟨wm, hwm⟩ := getWs_exists_of_sameFrame_rev h2.1 hw4
  obtain ⟨hp1, hd1⟩ := h1.2 i w2 wm hw2 hwm
  obtain ⟨hp2, hd2⟩ := h2.2 i wm w4 hwm hw4
  exact ⟨hp2.trans hp1, fun j hj => (hd2 j hj).trans (hd1 j hj)⟩

theorem cascadeRelS_mono {st st2 : Store} {ex ex2 : Int → Prop}
    (hm : ∀ j, ex j → ex2 j) (h : CascadeRelS st st2 ex) :
    CascadeRelS st st2 ex2 := by
  refine ⟨h.1, ?_⟩
  intro i w2 w3 hw2 hw3
  obtain ⟨hp, hd⟩ := h.2 i w2 w3 hw2 hw3
  exact ⟨hp, fun j hj => hd j (fun hx => hj (hm j hx))⟩

theorem scalarAt_of_rel {st st2 : Store} {ex : Int → Prop} {j : Int}
    (h : CascadeRelS st st2 ex) (hj : ¬ ex j) (hs : ScalarAt st j) :
    ScalarAt st2 j := by
  intro i w3 hw3
  obtain ⟨w2, hw2⟩ := getWs_exists_of_sameFrame_rev h.1 hw3
  rw [(h.2 i w2 w3 hw2 hw3).2 j hj]
  exact hs i w2 hw2

theorem gatherTargets_of_rel {st st2 : Store} {ex : Int → Prop} (wsId dn : String)
    (h : CascadeRelS st st2 ex) :
    gatherTargets st2 wsId dn = gatherTargets st wsId dn :=
  gatherTargets_congr dn h.1 (fun i w2 w3 h2 h3 => (h.2 i w2 w3 h2 h3).1)

/-- Packaged form of `cascade_set_simple`. -/
theorem cascade_set_rel (defs : Defs) (fuel : Nat) (st : Store) (tid : String)
    (g : Field) (v2 : Value)
    (hgdeps : g.dependents = [])
    (hv2 : extractChildWs v2 = [])
    (hold : ScalarAt st g.index) :
    (setRec defs fuel st tid g v2).events = [] ∧
    CascadeRelS st (setRec defs fuel st tid g v2).st (fun j => j = g.index) ∧
    ScalarAt (setRec defs fuel st tid g v2).st g.index := by
  obtain ⟨hev, hsf, hps, hpar, hdat, hsc⟩ :=
    cascade_set_simple defs fuel st tid g v2 hgdeps hv2 (fun w2 hw2 => hold tid w2 hw2)
  refine ⟨hev, ⟨hsf, fun i w2 w3 h2 h3 => ⟨hpar i w2 w3 h2 h3, fun j hj => ?_⟩⟩, ?_⟩
  · exact hdat i w2 w3 h2 h3 j (fun hc => hj hc.2)
  · intro i w3 hw3
    by_cases hi : i = tid
    · subst hi
      exact hsc w3 hw3
    · obtain ⟨w2, hw2⟩ := getWs_exists_of_sameFrame_rev hsf hw3
      rw [hdat i w2 w3 hw2 hw3 g.index (fun hc => hi hc.1)]
      exact hold i w2 hw2

/-- The inner recomputation loop of `handleDependentUpdates` on a
dependent-free computed field with scalar results: one compute event
per gathered target, in order, and a cascade-shaped store change. -/
theorem targetLoop_events_simple (defs : Defs) (fuel : Nat) (g : Field)
    (cb : String → Store → Except String Value)
    (hg : g.computedBy = some cb)
    (hgdeps : g.dependents = [])
    (hcb : ∀ i s v2, cb i s = .ok v2 → extractChildWs v2 = []) :
    ∀ (targets : List String) (st : Store), ScalarAt st g.index →
      (targetLoop defs fuel st g targets).err = none →
      (targetLoop defs fuel st g targets).events
        = targets.map (fun tid => (tid, g.defName, g.index)) ∧
      CascadeRelS st (targetLoop defs fuel st g targets).st (fun j => j = g.index) ∧
      ScalarAt (targetLoop defs fuel st g targets).st g.index := by
  intro targets
  induction targets with
  | nil =>
    intro st hold herr
    rw [targetLoop]
    exact ⟨rfl, cascadeRelS_rfl st _, hold⟩
  | cons tid rest ih =>
    intro st hold herr
    rw [targetLoop] at herr ⊢
    simp only [hg] at herr ⊢
    cases hcv : cb tid st with
    | error e =>
      simp only [hcv] at herr
      simp at herr
    | ok v2 =>
      simp only [hcv] at herr ⊢
      cases fuel with
      | zero => simp at herr
      | succ n =>
        simp only at herr ⊢
        obtain ⟨hev1, hrel1, hsc1⟩ :=
          cascade_set_rel defs n st tid g v2 hgdeps (hcb tid st v2 hcv) hold
        cases hsr : setRec defs n st tid g v2 with
        | mk st2 evs2 err2 =>
          rw [hsr] at hev1 hrel1 hsc1 herr
          simp only at hev1 hrel1 hsc1 herr ⊢
          subst hev1
          cases err2 with
          | some e => simp at herr
          | none =>
            simp only at herr ⊢
            obtain ⟨hev2, hrel2, hsc2⟩ := ih st2 hsc1 herr
            refine ⟨?_, cascadeRelS_trans hrel1 hrel2, hsc2⟩
            rw [hev2]
            simp

/-- The outer dependent loop of `handleDependentUpdates`, when every
dependent field is computed, dependent-free and scalar-valued: the
events are exactly one recomputation per dependent field and per
gathered target, in order. -/
theorem depLoop_events_simple (defs : Defs) (fuel : Nat) (wsId : String) :
    ∀ (deps : List (String × Int)) (st : Store),
      (∀ e ∈ deps, ∃ g cb2, defs.fieldAt e.1 e.2 = some g ∧
        g.computedBy = some cb2 ∧ g.defName = e.1 ∧ g.dependents = [] ∧
        (∀ i s v2, cb2 i s = .ok v2 → extractChildWs v2 = [])) →
      (∀ e ∈ deps, ∀ g, defs.fieldAt e.1 e.2 = some g → ScalarAt st g.index) →
      (depLoop defs fuel st wsId deps).err = none →
      (depLoop defs fuel st wsId deps).events
        = deps.flatMap
            (fun e => (gatherTargets st wsId e.1).map (fun tid => (tid, e.1, e.2))) ∧
      CascadeRelS st (depLoop defs fuel st wsId deps).st
        (fun j => ∃ e ∈ deps, ∃ g, defs.fieldAt e.1 e.2 = some g ∧ g.index = j) := by
  intro deps
  induction deps with
  | nil =>
    intro st _ _ _
    rw [depLoop]
    exact ⟨rfl, cascadeRelS_rfl st _⟩
  | cons e0 rest ih =>
    intro st hstatic hsc herr
    obtain ⟨dn, di⟩ := e0
    obtain ⟨g0, cb2, hfa, hcbg, hdn0, hdeps0, hscal0⟩ :=
      hstatic (dn, di) (List.mem_cons_self _ _)
    rw [depLoop] at herr ⊢
    simp only [hfa] at herr ⊢
    have hidx : g0.index = di := by
      obtain ⟨d, _, _, _, h⟩ := fieldAt_spec hfa
      exact h
    cases htl0 : targetLoop defs fuel st g0 (gatherTargets st wsId dn) with
    | mk st2 evs2 err2 =>
      rw [htl0] at herr
      obtain ⟨hev1, hrel1, hsc1⟩ := targetLoop_events_simple defs fuel g0 cb2 hcbg
        hdeps0 hscal0 (gatherTargets st wsId dn) st
        (hsc (dn, di) (List.mem_cons_self _ _) g0 hfa)
        (by
          rw [htl0]
          cases err2 with
          | none => rfl
          | some e2 => simp at herr)
      rw [htl0] at hev1 hrel1 hsc1
      simp only at hev1 hrel1 hsc1 herr ⊢
      cases err2 with
      | some e2 => simp at herr
      | none =>
        simp only at herr ⊢
        have hsc2 : ∀ e ∈ rest, ∀ g, defs.fieldAt e.1 e.2 = some g →
            ScalarAt st2 g.index := by
          intro e he g hg
          by_cases hij : g.index = g0.index
          · rw [hij]; exact hsc1
          · exact scalarAt_of_rel hrel1 hij
              (hsc e (List.mem_cons_of_mem _ he) g hg)
        obtain ⟨hev2, hrel2⟩ := ih st2
          (fun e he => hstatic e (List.mem_cons_of_mem _ he)) hsc2 herr
        constructor
        · rw [hev2, hev1, hdn0, hidx]
          have hgt : ∀ e ∈ rest, (gatherTargets st2 wsId e.1).map
                (fun tid => (tid, e.1, e.2))
              = (gatherTargets st wsId e.1).map (fun tid => (tid, e.1, e.2)) := by
            intro e _
            rw [gatherTargets_of_rel wsId e.1 hrel1]
          rw [List.flatMap_congr hgt]
          simp [List.flatMap]
        · refine cascadeRelS_trans (cascadeRelS_mono ?_ hrel1) (cascadeRelS_mono ?_ hrel2)
          · intro j hj
            exact ⟨(dn, di), List.mem_cons_self _ _, g0, hfa, hj.symm⟩
          · rintro j ⟨e, he, g, hg, hgj⟩
            exact ⟨e, List.mem_cons_of_mem _ he, g, hg, hgj⟩

/-- **C2 (amended).** For every successful value-changing `Set` to an
unconstrained, non-computed, non-slice field `f` (with dependent
fields that are computed, dependent-free, scalar-valued and stored at
an index different from `f`'s): the recomputation events are exactly
one per dependent field `g` of `f` and per gathered target — the
written worksheet itself when `g` belongs to the same definition, and
otherwise one per (parent-field-index, parent) entry recorded in the
parents map under `g`'s definition name, across **all** field indexes
of that definition, not only the index through which the dependency
passes.  A parent referencing the worksheet through two fields is
therefore recomputed twice (see the counterexample). -/
theorem set_dependent_events
    (defs : Defs) (fuel : Nat) (st : Store) (wsId name : String) (v : Value)
    (w : WsData) (field : Field)
    (hw : st.getWs wsId = some w) (hf : fieldOf defs w name = some field)
    (hcomp : field.computedBy = none) (hns : field.typ.isSlice = false)
    (hcb : field.constrainedBy = none)
    (hneq : ((alGet w.data field.index).getD Value.undefined).equal v = false)
    (hstatic : ∀ e ∈ field.dependents, ∃ g cb2, defs.fieldAt e.1 e.2 = some g ∧
      g.computedBy = some cb2 ∧ g.defName = e.1 ∧ g.dependents = [] ∧
      g.index ≠ field.index ∧
      (∀ i s v2, cb2 i s = .ok v2 → extractChildWs v2 = []))
    (hsc : ∀ e ∈ field.dependents, ∀ g, defs.fieldAt e.1 e.2 = some g →
      ScalarAt st g.index)
    (herr : (SetOp defs fuel st wsId name v).err = none) :
    (SetOp defs fuel st wsId name v).events
      = field.dependents.flatMap
          (fun e => (gatherTargets st wsId e.1).map (fun tid => (tid, e.1, e.2))) := by
  rw [SetOp_unconstrained_eq defs fuel st wsId name v w field hw hf hcomp hns hcb]
    at herr ⊢
  rw [setRec, hw] at herr ⊢
  simp only [hneq, Bool.false_eq_true, if_false] at herr ⊢
  cases hass : v.assignableTo field.typ with
  | false => simp [hass] at herr
  | true =>
    simp only [hass, Bool.not_true, Bool.false_eq_true, if_false] at herr ⊢
    rw [handleDeps] at herr ⊢
    have hget1 : ∀ i, (st.putWs wsId (writeData w field.index v)).getWs i =
        if i = wsId then some (writeData w field.index v) else st.getWs i := by
      intro i
      rw [getWs_putWs]
      by_cases hi : i = wsId
      · simp [hi, hw]
      · simp [hi]
    have hsf1 : SameFrame st (st.putWs wsId (writeData w field.index v)) :=
      sameFrame_putWs st wsId _ (fun w0 hw0 => by
        rw [hw] at hw0; cases hw0; exact (writeData_defName w field.index v).symm)
    have hpar1 : ∀ i w2 w3, st.getWs i = some w2 →
        (st.putWs wsId (writeData w field.index v)).getWs i = some w3 →
        w3.parents = w2.parents := by
      intro i w2 w3 h2 h3
      rw [hget1 i] at h3
      by_cases hi : i = wsId
      · rw [if_pos hi] at h3
        cases h3
        rw [hi, hw] at h2
        cases h2
        exact writeData_parents w field.index v
      · rw [if_neg hi] at h3
        rw [h2] at h3; cases h3; rfl
    have hsc1 : ∀ e ∈ field.dependents, ∀ g, defs.fieldAt e.1 e.2 = some g →
        ScalarAt (st.putWs wsId (writeData w field.index v)) g.index := by
      intro e he g hg i w2 hw2
      obtain ⟨g2, cb2, hfa2, _, _, _, hne2, _⟩ := hstatic e he
      rw [hg] at hfa2
      cases hfa2
      rw [hget1 i] at hw2
      by_cases hi : i = wsId
      · rw [if_pos hi] at hw2
        cases hw2
        rw [writeData_get_other w field.index v g.index hne2]
        exact hsc e he g hg wsId w hw
      · rw [if_neg hi] at hw2
        exact hsc e he g hg i w2 hw2
    cases hdl : depLoop defs fuel (st.putWs wsId (writeData w field.index v)) wsId
        field.dependents with
    | mk st2 evs2 err2 =>
      rw [hdl] at herr
      obtain ⟨hev, hrel⟩ := depLoop_events_simple defs fuel wsId field.dependents
        (st.putWs wsId (writeData w field.index v))
        (fun e he => by
          obtain ⟨g, cb2, a, b, c, d, _, f2⟩ := hstatic e he
          exact ⟨g, cb2, a, b, c, d, f2⟩)
        hsc1
        (by
          rw [hdl]
          cases err2 with
          | none => rfl
          | some e2 => simp at herr)
      rw [hdl] at hev
      simp only at hev herr ⊢
      cases err2 with
      | some e2 => simp at herr
      | none =>
        simp only at herr ⊢
        rw [hev]
        refine List.flatMap_congr ?_
        intro e _
        rw [gatherTargets_congr e.1 hsf1 hpar1]

/-- Fixture for the C2 counterexample and witness: `simple.name` has
the computed field `with_refs2.nice` as dependent; a parent `p` holds
the child `c` in two reference fields (indexes 87 and 88), so the
parents map of `c` records `p` twice under `with_refs2`. -/
def c2cb : String → Store → Except String Value := fun _ _ => .ok (.text "N")

def c2fName : Field := ⟨83, "name", .text, "simple", none, none, [("with_refs2", 90)]⟩

def c2fS1 : Field := ⟨87, "ref1", .defn "simple", "with_refs2", none, none, []⟩

def c2fS2 : Field := ⟨88, "ref2", .defn "simple", "with_refs2", none, none, []⟩

def c2fNice : Field := ⟨90, "nice", .text, "with_refs2", some c2cb, none, []⟩

def c2Defs : Defs := ⟨[⟨"simple", [c2fName]⟩, ⟨"with_refs2", [c2fS1, c2fS2, c2fNice]⟩]⟩

def c2child : WsData := ⟨"simple", [], [("with_refs2", 87, "p"), ("with_refs2", 88, "p")]⟩

def c2parent : WsData := ⟨"with_refs2", [(87, .ws "c" "simple"), (88, .ws "c" "simple")], []⟩

def c2Store : Store := ⟨[("c", c2child), ("p", c2parent)]⟩

/-- **C2 counterexample.** `p` references `c` through the fields at
indexes 87 and 88, and the computed field `nice` depends on
`simple.name` through only one of them; the set of recomputation
targets after the successful `Set(c.name, "Alice")` is the parents-map
entry list `[p, p]`, so `nice` is recomputed twice on the single
parent worksheet `p`, not exactly once. -/
theorem set_dependent_events_cex :
    (SetOp c2Defs 3 c2Store "c" "name" (.text "Alice")).err = none ∧
    (SetOp c2Defs 3 c2Store "c" "name" (.text "Alice")).events
      = [("p", "with_refs2", 90), ("p", "with_refs2", 90)] := by
  constructor
  · simp [SetOp, setRec, handleDeps, depLoop, targetLoop, gatherTargets, c2Defs,
      c2Store, c2child, c2parent, c2fName, c2fNice, c2fS1, c2fS2, c2cb, fieldOf,
      Defs.findDef, Defs.fieldAt, Definition.fieldByName, Definition.fieldByIndex,
      Store.getWs, Store.putWs, alGet, getValue, Value.equal, List.find?,
      Typ.isSlice, Value.assignableTo, writeData, Value.isUndef, alSet, alDel,
      extractChildWs]
  · simp [SetOp, setRec, handleDeps, depLoop, targetLoop, gatherTargets, c2Defs,
      c2Store, c2child, c2parent, c2fName, c2fNice, c2fS1, c2fS2, c2cb, fieldOf,
      Defs.findDef, Defs.fieldAt, Definition.fieldByName, Definition.fieldByIndex,
      Store.getWs, Store.putWs, alGet, getValue, Value.equal, List.find?,
      Typ.isSlice, Value.assignableTo, writeData, Value.isUndef, alSet, alDel,
      extractChildWs]

/-- Witness for C2: on the concrete fixture the amended theorem
applies, and its conclusion agrees with the duplicated event list. -/
theorem set_dependent_events_witness :
    (SetOp c2Defs 3 c2Store "c" "name" (.text "Alice")).events
      = ([("with_refs2", (90 : Int))]).flatMap
          (fun e => (gatherTargets c2Store "c" e.1).map (fun tid => (tid, e.1, e.2))) := by
  refine set_dependent_events c2Defs 3 c2Store "c" "name" (.text "Alice")
    c2child c2fName rfl rfl rfl rfl rfl rfl ?_ ?_ ?_
  · intro e he
    simp only [c2fName, List.mem_singleton] at he
    subst he
    refine ⟨c2fNice, c2cb, rfl, rfl, rfl, rfl, by decide, ?_⟩
    intro i s v2 hv
    simp only [c2cb] at hv
    cases hv
    rfl
  · intro e he g hg i w2 hw2
    simp only [c2fName, List.mem_singleton] at he
    subst he
    have hgi : g.index = 90 := by
      simp only [c2Defs, Defs.fieldAt, Defs.findDef, Definition.fieldByIndex,
        List.find?, c2fS1, c2fS2, c2fNice, c2fName] at hg
      simp only [Option.bind] at hg
      cases hg
      rfl
    have hmem := getWs_mem hw2
    simp only [c2Store, List.mem_cons, List.not_mem_nil, or_false,
      Prod.mk.injEq] at hmem
    rw [hgi]
    rcases hmem with ⟨hi, hweq⟩ | ⟨hi, hweq⟩
    · subst hweq
      rfl
    · subst hweq
      rfl
  · simp [SetOp, setRec, handleDeps, depLoop, targetLoop, gatherTargets, c2Defs,
      c2Store, c2child, c2parent, c2fName, c2fNice, c2fS1, c2fS2, c2cb, fieldOf,
      Defs.findDef, Defs.fieldAt, Definition.fieldByName, Definition.fieldByIndex,
      Store.getWs, Store.putWs, alGet, getValue, Value.equal, List.find?,
      Typ.isSlice, Value.assignableTo, writeData, Value.isUndef, alSet, alDel,
      extractChildWs]

/-- The parents map of worksheet `c` holds the entry `e`. -/
def HasEntry (st : Store) (c : String) (e : String × Int × String) : Prop :=
  ∀ ps, ParentsAt st c = some ps → e ∈ ps

/-- The parents map of worksheet `c` does not hold the entry `e`. -/
def LacksEntry (st : Store) (c : String) (e : String × Int × String) : Prop :=
  ∀ ps, ParentsAt st c = some ps → e ∉ ps

theorem parentsAdd_self (ps : List (String × Int × String)) (e : String × Int × String) :
    e ∈ parentsAdd ps e := by
  unfold parentsAdd
  by_cases h : e ∈ ps
  · rw [if_pos h]; exact h
  · rw [if_neg h]; simp

theorem parentsRemove_not_mem (ps : List (String × Int × String))
    (e : String × Int × String) : e ∉ parentsRemove ps e := by
  unfold parentsRemove
  simp

theorem parentsAt_modWs (st : Store) (id : String) (g : WsData → WsData) (j : String) :
    ParentsAt (st.modWs id g) j =
      if j = id then (st.getWs j).map (fun w => (g w).parents) else ParentsAt st j := by
  unfold ParentsAt
  rw [getWs_modWs]
  by_cases h : j = id
  · rw [if_pos h, if_pos h, h, Option.map_map]
    rfl
  · rw [if_neg h, if_neg h]

theorem hasEntry_add_step (st : Store) (cid c : String) (e : String × Int × String)
    (h : c = cid ∨ HasEntry st c e) :
    HasEntry (st.modWs cid
      (fun x => { x with parents := parentsAdd x.parents e })) c e := by
  intro ps hps
  rw [parentsAt_modWs] at hps
  by_cases hc : c = cid
  · rw [if_pos hc] at hps
    cases hg : st.getWs c with
    | none => rw [hg] at hps; exact absurd hps (by simp)
    | some w =>
      rw [hg] at hps
      have hps2 : parentsAdd w.parents e = ps := Option.some.inj hps
      rw [← hps2]
      exact parentsAdd_self w.parents e
  · rw [if_neg hc] at hps
    rcases h with h | h
    · exact absurd h hc
    · exact h ps hps

theorem lacksEntry_remove_step (st : Store) (cid c : String) (e : String × Int × String)
    (h : c = cid ∨ LacksEntry st c e) :
    LacksEntry (st.modWs cid
      (fun x => { x with parents := parentsRemove x.parents e })) c e := by
  intro ps hps
  rw [parentsAt_modWs] at hps
  by_cases hc : c = cid
  · rw [if_pos hc] at hps
    cases hg : st.getWs c with
    | none => rw [hg] at hps; exact absurd hps (by simp)
    | some w =>
      rw [hg] at hps
      have hps2 : parentsRemove w.parents e = ps := Option.some.inj hps
      rw [← hps2]
      exact parentsRemove_not_mem w.parents e
  · rw [if_neg hc] at hps
    rcases h with h | h
    · exact absurd h hc
    · exact h ps hps

/-- After the parents-addition fold of `handleDependentUpdates`, every
child in the fold list (and every worksheet that already had the entry)
holds the entry. -/
theorem hasEntry_foldAdd (cids : List String) (st : Store) (c : String)
    (e : String × Int × String) (h : c ∈ cids ∨ HasEntry st c e) :
    HasEntry (cids.foldl
      (fun s cid => s.modWs cid
        (fun x => { x with parents := parentsAdd x.parents e })) st) c e := by
  induction cids generalizing st with
  | nil =>
    rcases h with h | h
    · exact absurd h (List.not_mem_nil c)
    · exact h
  | cons cid rest ih =>
    rw [List.foldl_cons]
    rcases h with h | h
    · rcases List.mem_cons.mp h with h2 | h2
      · exact ih _ (Or.inr (hasEntry_add_step st cid c e (Or.inl h2)))
      · exact ih _ (Or.inl h2)
    · exact ih _ (Or.inr (hasEntry_add_step st cid c e (Or.inr h)))

/-- After the parents-removal fold of `handleDependentUpdates`, every
child in the fold list lacks the entry — whether or not it is still
referenced elsewhere. -/
theorem lacksEntry_foldRemove (cids : List String) (st : Store) (c : String)
    (e : String × Int × String) (h : c ∈ cids ∨ LacksEntry st c e) :
    LacksEntry (cids.foldl
      (fun s cid => s.modWs cid
        (fun x => { x with parents := parentsRemove x.parents e })) st) c e := by
  induction cids generalizing st with
  | nil =>
    rcases h with h | h
    · exact absurd h (List.not_mem_nil c)
    · exact h
  | cons cid rest ih =>
    rw [List.foldl_cons]
    rcases h with h | h
    · rcases List.mem_cons.mp h with h2 | h2
      · exact ih _ (Or.inr (lacksEntry_remove_step st cid c e (Or.inl h2)))
      · exact ih _ (Or.inl h2)
    · exact ih _ (Or.inr (lacksEntry_remove_step st cid c e (Or.inr h)))

/-- A parents-removal fold over ids not containing `c` leaves the
parents of `c` unchanged. -/
theorem parentsAt_foldRemove_notin (cids : List String) (st : Store) (c : String)
    (e : String × Int × String) (h : c ∉ cids) :
    ParentsAt (cids.foldl
      (fun s cid => s.modWs cid
        (fun x => { x with parents := parentsRemove x.parents e })) st) c
      = ParentsAt st c := by
  induction cids generalizing st with
  | nil => rfl
  | cons cid rest ih =>
    rw [List.foldl_cons]
    have hne : c ≠ cid := fun heq => h (heq ▸ List.mem_cons_self cid rest)
    have hrest : c ∉ rest := fun hm => h (List.mem_cons_of_mem cid hm)
    rw [ih _ hrest, parentsAt_modWs, if_neg hne]

/-- `handleDependentUpdates` on a field with no dependents: no
recomputation, no error, and the store is exactly the parents-addition
fold over the new value's children followed by the parents-removal fold
over the old value's children, both with the entry
(definition name, field index, worksheet id). -/
theorem handleDeps_nodeps (defs : Defs) (fuel : Nat) (st : Store) (wsId : String)
    (field : Field) (oldValue newValue : Value) (w : WsData)
    (hd : field.dependents = []) (hw : st.getWs wsId = some w) :
    handleDeps defs fuel st wsId field oldValue newValue =
      ⟨(extractChildWs oldValue).foldl
        (fun s cid => s.modWs cid
          (fun c => { c with parents := parentsRemove c.parents (w.defName, field.index, wsId) }))
        ((extractChildWs newValue).foldl
          (fun s cid => s.modWs cid
            (fun c => { c with parents := parentsAdd c.parents (w.defName, field.index, wsId) })) st),
       [], none⟩ := by
  rw [handleDeps, hd]
  simp only [depLoop, hw]

/-- Parents maintenance of a successful value-changing `Set` on a
dependent-free, unconstrained, non-computed scalar field: children of
the new value gain the entry (unless the old value also referenced
them, since removals run after additions), children of the old value
lose it unconditionally. -/
theorem set_parents_upkeep (defs : Defs) (fuel : Nat) (st : Store) (wsId name : String)
    (v : Value) (w : WsData) (field : Field)
    (hw : st.getWs wsId = some w) (hf : fieldOf defs w name = some field)
    (hdeps : field.dependents = [])
    (hcomp : field.computedBy = none) (hns : field.typ.isSlice = false)
    (hcb : field.constrainedBy = none)
    (hneq : ((alGet w.data field.index).getD Value.undefined).equal v = false)
    (hass : v.assignableTo field.typ = true) :
    (SetOp defs fuel st wsId name v).err = none ∧
    (∀ c ∈ extractChildWs v,
      c ∉ extractChildWs ((alGet w.data field.index).getD Value.undefined) →
      HasEntry (SetOp defs fuel st wsId name v).st c (w.defName, field.index, wsId)) ∧
    (∀ c ∈ extractChildWs ((alGet w.data field.index).getD Value.undefined),
      LacksEntry (SetOp defs fuel st wsId name v).st c (w.defName, field.index, wsId)) := by
  rw [SetOp_unconstrained_eq defs fuel st wsId name v w field hw hf hcomp hns hcb]
  rw [setRec, hw]
  simp only [hneq, Bool.false_eq_true, if_false, hass, Bool.not_true]
  have hw1 : (st.putWs wsId (writeData w field.index v)).getWs wsId
      = some (writeData w field.index v) := by
    rw [getWs_putWs]
    simp [hw]
  rw [handleDeps_nodeps defs fuel _ wsId field
    ((alGet w.data field.index).getD Value.undefined) v (writeData w field.index v)
    hdeps hw1]
  rw [writeData_defName]
  refine ⟨rfl, ?_, ?_⟩
  · intro c hc hnotold ps hps
    rw [parentsAt_foldRemove_notin _ _ c _ hnotold] at hps
    exact hasEntry_foldAdd _ _ c _ (Or.inl hc) ps hps
  · intro c hc
    exact lacksEntry_foldRemove _ _ c _ (Or.inl hc)

/-- Parents maintenance of a successful `Append` on a dependent-free
slice field holding a stored slice: every child of the appended element
gains the entry. -/
theorem append_parents_upkeep (defs : Defs) (fuel : Nat) (st : Store)
    (wsId name : String) (element : Value) (w : WsData) (field : Field)
    (tE et0 : Typ) (elems : List (Nat × Value))
    (hw : st.getWs wsId = some w) (hf : fieldOf defs w name = some field)
    (hdeps : field.dependents = [])
    (ht : field.typ = .slice tE)
    (hstored : alGet w.data field.index = some (.slice et0 elems))
    (hass : element.assignableTo et0 = true) :
    (AppendOp defs fuel st wsId name element).err = none ∧
    ∀ c ∈ extractChildWs element,
      HasEntry (AppendOp defs fuel st wsId name element).st c
        (w.defName, field.index, wsId) := by
  simp only [AppendOp, hw, hf, ht, hstored, Option.isSome_some, if_true,
    Option.getD_some, doAppend, hass]
  have hw1 : (st.putWs wsId { w with data := alSet w.data field.index (.slice et0 (elems ++ [((elems.map (fun e => e.1)).foldl max 0 + 1, element)])) }).getWs wsId = some { w with data := alSet w.data field.index (.slice et0 (elems ++ [((elems.map (fun e => e.1)).foldl max 0 + 1, element)])) } := by
    rw [getWs_putWs]
    simp [hw]
  rw [handleDeps_nodeps defs fuel _ wsId field Value.undefined element _ hdeps hw1]
  refine ⟨rfl, ?_⟩
  intro c hc
  show HasEntry _ c (w.defName, field.index, wsId)
  intro ps hps
  rw [show extractChildWs Value.undefined = [] from rfl, List.foldl_nil] at hps
  exact hasEntry_foldAdd _ _ c _ (Or.inl hc) ps hps

/-- Parents maintenance of a successful `Del` on a dependent-free slice
field: every child of the removed element loses the entry, whether or
not the same child remains in the slice. -/
theorem del_parents_upkeep (defs : Defs) (fuel : Nat) (st : Store)
    (wsId name : String) (i : Int) (w : WsData) (field : Field)
    (tE et0 : Typ) (elems : List (Nat × Value))
    (hw : st.getWs wsId = some w) (hf : fieldOf defs w name = some field)
    (hdeps : field.dependents = [])
    (ht : field.typ = .slice tE)
    (hstored : alGet w.data field.index = some (.slice et0 elems))
    (hge : 0 ≤ i) (hlt : i.toNat < elems.length) :
    (DelOp defs fuel st wsId name i).err = none ∧
    ∀ c ∈ extractChildWs (elems.get ⟨i.toNat, hlt⟩).2,
      LacksEntry (DelOp defs fuel st wsId name i).st c
        (w.defName, field.index, wsId) := by
  simp only [DelOp, hw, hf, ht, getValue, hstored]
  rw [dif_pos (⟨hge, hlt⟩ : 0 ≤ i ∧ i.toNat < elems.length)]
  have hw1 : (st.putWs wsId { w with data := alSet w.data field.index (.slice et0 (elems.eraseIdx i.toNat)) }).getWs wsId = some { w with data := alSet w.data field.index (.slice et0 (elems.eraseIdx i.toNat)) } := by
    rw [getWs_putWs]
    simp [hw]
  rw [handleDeps_nodeps defs fuel _ wsId field
    (elems.get ⟨i.toNat, hlt⟩).2 Value.undefined _ hdeps hw1]
  refine ⟨rfl, ?_⟩
  intro c hc
  exact lacksEntry_foldRemove _ _ c _ (Or.inl hc)

/-- **C3 (amended).** Mutations maintain the parents index without
reference counting.  On a dependent-free field of a worksheet `W`:
a successful value-changing `Set` adds the entry
(W.def.name, f.index, W.id) to the parents of every worksheet
referenced by the new value (when not also referenced by the old value,
whose removals run last) and deletes it from the parents of every
worksheet referenced by the old value; a successful `Append` adds it
for every referent of the appended element; a successful `Del` deletes
it for every referent of the removed element even when the same child
remains elsewhere in the slice — so the invariant "W currently holds C
at f ⇒ entry present in C.parents" holds only in the absence of
duplicate references (see the counterexample). -/
theorem parents_maintenance (defs : Defs) (fuel : Nat) (st : Store) (wsId name : String)
    (w : WsData) (field : Field)
    (hw : st.getWs wsId = some w) (hf : fieldOf defs w name = some field)
    (hdeps : field.dependents = []) :
    (∀ v, field.computedBy = none → field.typ.isSlice = false →
      field.constrainedBy = none →
      ((alGet w.data field.index).getD Value.undefined).equal v = false →
      v.assignableTo field.typ = true →
      (SetOp defs fuel st wsId name v).err = none ∧
      (∀ c ∈ extractChildWs v,
        c ∉ extractChildWs ((alGet w.data field.index).getD Value.undefined) →
        HasEntry (SetOp defs fuel st wsId name v).st c (w.defName, field.index, wsId)) ∧
      (∀ c ∈ extractChildWs ((alGet w.data field.index).getD Value.undefined),
        LacksEntry (SetOp defs fuel st wsId name v).st c (w.defName, field.index, wsId))) ∧
    (∀ element tE et0 elems, field.typ = .slice tE →
      alGet w.data field.index = some (.slice et0 elems) →
      element.assignableTo et0 = true →
      (AppendOp defs fuel st wsId name element).err = none ∧
      ∀ c ∈ extractChildWs element,
        HasEntry (AppendOp defs fuel st wsId name element).st c
          (w.defName, field.index, wsId)) ∧
    (∀ (i : Int) (tE et0 : Typ) (elems : List (Nat × Value)),
      field.typ = .slice tE →
      alGet w.data field.index = some (.slice et0 elems) →
      0 ≤ i → ∀ hlt : i.toNat < elems.length,
      (DelOp defs fuel st wsId name i).err = none ∧
      ∀ c ∈ extractChildWs (elems.get ⟨i.toNat, hlt⟩).2,
        LacksEntry (DelOp defs fuel st wsId name i).st c
          (w.defName, field.index, wsId)) :=
  ⟨fun v h1 h2 h3 h4 h5 =>
     set_parents_upkeep defs fuel st wsId name v w field hw hf hdeps h1 h2 h3 h4 h5,
   fun element tE et0 elems h1 h2 h3 =>
     append_parents_upkeep defs fuel st wsId name element w field tE et0 elems
       hw hf hdeps h1 h2 h3,
   fun i tE et0 elems h1 h2 h3 h4 =>
     del_parents_upkeep defs fuel st wsId name i w field tE et0 elems
       hw hf hdeps h1 h2 h3 h4⟩

/-- Fixture for the C3 counterexample and witness: a parent `P` of
definition `par` with a slice-of-`child` field `kids` (index 11), and
a single child worksheet `c`. -/
def c3fKids : Field := ⟨11, "kids", .slice (.defn "child"), "par", none, none, []⟩

def c3Defs : Defs := ⟨[⟨"par", [c3fKids]⟩, ⟨"child", []⟩]⟩

def c3par : WsData := ⟨"par", [], []⟩

def c3child : WsData := ⟨"child", [], []⟩

def c3Store0 : Store := ⟨[("P", c3par), ("c", c3child)]⟩

/-- **C3 counterexample.** Append the same child `c` to `P.kids` twice,
then `Del` the first occurrence: every mutation succeeds and after the
two appends the parents entry is present, but after the `Del` the
slice still holds `c` while the entry ("par", 11, "P") has been removed
from `c`'s parents — the claimed invariant is broken. -/
theorem parents_maintenance_cex :
    (AppendOp c3Defs 1 c3Store0 "P" "kids" (.ws "c" "child")).err = none ∧
    (AppendOp c3Defs 1 (AppendOp c3Defs 1 c3Store0 "P" "kids" (.ws "c" "child")).st
      "P" "kids" (.ws "c" "child")).err = none ∧
    ParentsAt (AppendOp c3Defs 1 (AppendOp c3Defs 1 c3Store0 "P" "kids" (.ws "c" "child")).st
      "P" "kids" (.ws "c" "child")).st "c" = some [("par", 11, "P")] ∧
    (DelOp c3Defs 1 (AppendOp c3Defs 1 (AppendOp c3Defs 1 c3Store0 "P" "kids"
      (.ws "c" "child")).st "P" "kids" (.ws "c" "child")).st "P" "kids" 0).err = none ∧
    alGet (((DelOp c3Defs 1 (AppendOp c3Defs 1 (AppendOp c3Defs 1 c3Store0 "P" "kids"
      (.ws "c" "child")).st "P" "kids" (.ws "c" "child")).st "P" "kids" 0).st.getWs
      "P").getD ⟨"", [], []⟩).data 11
      = some (.slice (.defn "child") [(2, .ws "c" "child")]) ∧
    ParentsAt (DelOp c3Defs 1 (AppendOp c3Defs 1 (AppendOp c3Defs 1 c3Store0 "P" "kids"
      (.ws "c" "child")).st "P" "kids" (.ws "c" "child")).st "P" "kids" 0).st "c"
      = some [] := by
  refine ⟨?_, ?_, ?_, ?_, ?_, ?_⟩ <;>
    simp [AppendOp, DelOp, handleDeps, depLoop, doAppend, getValue, c3Defs, c3Store0,
      c3par, c3child, c3fKids, fieldOf, Defs.findDef, Definition.fieldByName,
      Store.getWs, Store.putWs, Store.modWs, alGet, alSet, List.find?,
      Value.assignableTo, extractChildWs, parentsAdd, parentsRemove, ParentsAt,
      List.eraseIdx]

/-- Post-append state used by the C3 witness: `P.kids` holds `c` at
ranks 1 and 2 and `c`'s parents record the entry. -/
def c3par2 : WsData :=
  ⟨"par", [(11, .slice (.defn "child") [(1, .ws "c" "child"), (2, .ws "c" "child")])], []⟩

def c3child2 : WsData := ⟨"child", [], [("par", 11, "P")]⟩

def c3Store2 : Store := ⟨[("P", c3par2), ("c", c3child2)]⟩

/-- Witness for C3: deleting the first occurrence of the duplicated
child succeeds and, per the amended theorem, removes the parents entry
of the removed referent even though `c` is still held at rank 2. -/
theorem parents_maintenance_witness :
    (DelOp c3Defs 1 c3Store2 "P" "kids" 0).err = none ∧
    LacksEntry (DelOp c3Defs 1 c3Store2 "P" "kids" 0).st "c" ("par", (11 : Int), "P") := by
  have h := (parents_maintenance c3Defs 1 c3Store2 "P" "kids" c3par2 c3fKids
      rfl rfl rfl).2.2 0 (.defn "child") (.defn "child")
      [(1, .ws "c" "child"), (2, .ws "c" "child")] rfl rfl (by decide) (by decide)
  refine ⟨h.1, ?_⟩
  exact h.2 "c" (by simp [extractChildWs])

namespace Schema

/-- A parsed `computed_by` / `constrained_by` clause, as `NewDefinitions`
observes it: either the sentinel `external` (`tExternal`) awaiting a
plugin, or an expression exposing its selector arguments
(`expression.selectors()`), each selector a dotted identifier path. -/
inductive CompSpec where
  | external : CompSpec
  | expr : List (List String) → CompSpec
deriving DecidableEq

/-- A parsed field as `NewDefinitions` manipulates it (worksheets.go
70-78 pre-resolution): reference types appear as `.defn name` until
`resolveRefTypes` links them. -/
structure Field where
  index : Int
  fname : String
  typ : Typ
  computedBy : Option CompSpec
  constrainedBy : Option CompSpec
deriving DecidableEq

/-- A parsed worksheet definition. -/
structure Definition where
  name : String
  fields : List Field
deriving DecidableEq

/-- A top-level `NamedType` from `parseDefinitions`: a worksheet
definition or an enum declaration. -/
inductive NamedType where
  | ws : Definition → NamedType
  | en : String → NamedType
deriving DecidableEq

def nameOf : NamedType → String
  | .ws d => d.name
  | .en n => n

/-- The plugin table of one `Options` value: worksheet name to field
name to the plugin's selector arguments (`ComputedBy.Args()`, already
split on dots). -/
abbrev PluginTable := List (String × List (String × List (List String)))

/-- The `defs` map building loop of `NewDefinitions` (worksheets.go
121-128): reject duplicate top-level names. -/
def buildDefs : List NamedType → List (String × NamedType) →
    Except String (List (String × NamedType))
  | [], acc => .ok acc
  | d :: rest, acc =>
    if (acc.map (fun p => p.1)).contains (nameOf d) then
      .error ("multiple types " ++ nameOf d)
    else buildDefs rest (acc ++ [(nameOf d, d)])

/-- Plugin attachment to one field (worksheets.go 286-294): an external
`computed_by` takes the plugin, else an external `constrained_by`, else
the field was not externally defined. -/
def setPlugin (dn : String) (f : Field) (args : List (List String)) :
    Except String Field :=
  if f.computedBy = some .external then .ok { f with computedBy := some (.expr args) }
  else if f.constrainedBy = some .external then
    .ok { f with constrainedBy := some (.expr args) }
  else .error ("plugins: field " ++ dn ++ "." ++ f.fname ++ " not externally defined")

def attachOne (d : Definition) (fieldName : String) (args : List (List String)) :
    Except String Definition :=
  match d.fields.find? (fun f => f.fname == fieldName) with
  | none => .error ("plugins: unknown field " ++ d.name ++ "." ++ fieldName)
  | some f =>
    match setPlugin d.name f args with
    | .error e => .error e
    | .ok f2 =>
      .ok { d with fields := d.fields.map (fun g => if g.fname == fieldName then f2 else g) }

/-- `attachPluginsToFields` (worksheets.go 280-297). -/
def attachPluginsToFields (d : Definition) :
    List (String × List (List String)) → Except String Definition
  | [] => .ok d
  | (fn, args) :: rest =>
    match attachOne d fn args with
    | .error e => .error e
    | .ok d2 => attachPluginsToFields d2 rest

/-- Lookup in the defs map. -/
def lookupNT (dm : List (String × NamedType)) (n : String) : Option NamedType :=
  (dm.find? (fun p => p.1 == n)).map (fun p => p.2)

/-- The plugin loop of `processOptions` (worksheets.go 260-276): each
plugin entry must name a known worksheet (an enum of that name is
equally unknown). -/
def applyPlugins (dm : List (String × NamedType)) :
    PluginTable → Except String (List (String × NamedType))
  | [] => .ok dm
  | (wsn, plugins) :: rest =>
    match lookupNT dm wsn with
    | some (.ws d) =>
      match attachPluginsToFields d plugins with
      | .error e => .error e
      | .ok d2 =>
        applyPlugins (dm.map (fun p => if p.1 = wsn then (wsn, .ws d2) else p)) rest
    | _ => .error ("plugins: unknown worksheet " ++ wsn)

/-- `processOptions` (worksheets.go 251-278). -/
def processOptions (dm : List (String × NamedType)) :
    List PluginTable → Except String (List (String × NamedType))
  | [] => .ok dm
  | [opt] => applyPlugins dm opt
  | _ => .error "too many options provided"

/-- `resolveRefTypes` (worksheets.go 222-249) reduced to its error
behavior: the first type name referenced (through any slice nesting)
that is not a top-level name, or `none` when all resolve. -/
def refErr (names : List String) : Typ → Option String
  | .defn n => if names.contains n then none else some n
  | .slice t => refErr names t
  | _ => none

/-- Slice unwrapping of `tSelector.Select` (worksheets.go 211-212). -/
def stripSlices : Typ → Typ
  | .slice t => stripSlices t
  | t => t

/-- `tSelector.Select` (worksheets.go 194-216) reduced to its success:
resolve the head identifier as a field of the (slice-unwrapped)
worksheet type, then the tail against that field's type.  Reference
types are chased through the defs map, as they are after
`resolveRefTypes` relinked them. -/
def selectOk (dm : List (String × NamedType)) : List String → Typ → Bool
  | [], _ => false
  | s0 :: rest, t =>
    match stripSlices t with
    | .defn n =>
      match lookupNT dm n with
      | some (.ws d) =>
        match d.fields.find? (fun f => f.fname == s0) with
        | none => false
        | some f => rest.isEmpty || selectOk dm rest f.typ
      | _ => false
    | _ => false

/-- The trigger expression of a field (worksheets.go 160-163):
`computed_by`, or else `constrained_by`. -/
def trigger (f : Field) : Option CompSpec :=
  match f.computedBy with
  | some c => some c
  | none => f.constrainedBy

/-- Modelled from the spec: the sentinel `external` expression lives in
the expressions file, which is not under src/; it exposes no selector
arguments, and the resolver refuses to return a Definitions object
while any external field remains unbound (§3.C, §6). -/
def selectorsOf : CompSpec → List (List String)
  | .external => []
  | .expr sels => sels

/-- The per-field checks of worksheets.go 140-150: unresolved external
`computed_by`, then unresolvable reference types. -/
def checkFieldsDef (names : List String) (dn : String) :
    List Field → Except String Unit
  | [] => .ok ()
  | f :: rest =>
    if f.computedBy = some .external then
      .error (dn ++ "." ++ f.fname ++ ": missing plugin for external computed_by")
    else
      match refErr names f.typ with
      | some n => .error (dn ++ "." ++ f.fname ++ ": unknown type " ++ n)
      | none => checkFieldsDef names dn rest

def checkFields (names : List String) :
    List (String × NamedType) → Except String Unit
  | [] => .ok ()
  | (_, .en _) :: rest => checkFields names rest
  | (_, .ws d) :: rest =>
    match checkFieldsDef names d.name d.fields with
    | .error e => .error e
    | .ok _ => checkFields names rest

/-- The dependency-resolution loop of worksheets.go 154-187 reduced to
its error behavior (the `dependents` wiring it performs on success has
no failure path and is embedded separately in the runtime model): a
trigger with no selector arguments, or a selector that does not
resolve against the definition. -/
def checkDepsDef (dm : List (String × NamedType)) (dn : String) :
    List Field → Except String Unit
  | [] => .ok ()
  | f :: rest =>
    match trigger f with
    | none => checkDepsDef dm dn rest
    | some trig =>
      let sels := selectorsOf trig
      if sels.isEmpty then .error (dn ++ "." ++ f.fname ++ " has no dependencies")
      else
        match sels.find? (fun s => !selectOk dm s (.defn dn)) with
        | some s => .error (dn ++ "." ++ f.fname ++ " references unknown arg " ++
            String.intercalate "." s)
        | none => checkDepsDef dm dn rest

def checkDeps (dm : List (String × NamedType)) :
    List (String × NamedType) → Except String Unit
  | [] => .ok ()
  | (_, .en _) :: rest => checkDeps dm rest
  | (_, .ws d) :: rest =>
    match checkDepsDef dm d.name d.fields with
    | .error e => .error e
    | .ok _ => checkDeps dm rest

/-- `NewDefinitions` (worksheets.go 114-192) over parsed input: build
the defs map rejecting duplicates, process plugin options, reject
unresolved externals and unknown reference types, then resolve
dependencies, returning the defs map on success. -/
def NewDefinitions (allDefs : List NamedType) (opts : List PluginTable) :
    Except String (List (String × NamedType)) :=
  match buildDefs allDefs [] with
  | .error e => .error e
  | .ok dm =>
    match processOptions dm opts with
    | .error e => .error e
    | .ok dm2 =>
      match checkFields (dm2.map (fun p => p.1)) dm2 with
      | .error e => .error e
      | .ok _ =>
        match checkDeps dm2 dm2 with
        | .error e => .error e
        | .ok _ => .ok dm2

theorem buildDefs_nodup (l : List NamedType) (acc dm : List (String × NamedType))
    (h : buildDefs l acc = .ok dm)
    (hacc : (acc.map (fun p => p.1)).Nodup) :
    (acc.map (fun p => p.1) ++ l.map nameOf).Nodup := by
  induction l generalizing acc with
  | nil => simpa using hacc
  | cons d rest ih =>
    rw [buildDefs] at h
    by_cases hc : (acc.map (fun p => p.1)).contains (nameOf d)
    · rw [if_pos hc] at h
      exact absurd h (by simp)
    · rw [if_neg hc] at h
      have hnm : nameOf d ∉ acc.map (fun p => p.1) := by
        intro hm
        exact hc (List.contains_iff_exists_mem_beq.mpr ⟨nameOf d, hm, by simp⟩)
      have hacc2 : ((acc ++ [(nameOf d, d)]).map (fun p => p.1)).Nodup := by
        rw [List.map_append]
        refine List.Nodup.append hacc (by simp) ?_
        intro a ha hb
        simp only [List.map_cons, List.map_nil, List.mem_singleton] at hb
        exact hnm (hb ▸ ha)
      have h3 := ih (acc ++ [(nameOf d, d)]) h hacc2
      rw [List.map_append] at h3
      simpa [List.append_assoc] using h3

theorem checkFieldsDef_ok (names : List String) (dn : String) (fs : List Field)
    (h : checkFieldsDef names dn fs = .ok ()) :
    ∀ f ∈ fs, f.computedBy ≠ some .external ∧ refErr names f.typ = none := by
  induction fs with
  | nil => intro f hf; exact absurd hf (List.not_mem_nil f)
  | cons f rest ih =>
    rw [checkFieldsDef] at h
    by_cases hext : f.computedBy = some .external
    · rw [if_pos hext] at h
      exact absurd h (by simp)
    · rw [if_neg hext] at h
      cases href : refErr names f.typ with
      | some n => rw [href] at h; exact absurd h (by simp)
      | none =>
        rw [href] at h
        intro g hg
        rcases List.mem_cons.mp hg with hg2 | hg2
        · subst hg2; exact ⟨hext, href⟩
        · exact ih h g hg2

theorem checkFields_ok (names : List String) (lst : List (String × NamedType))
    (h : checkFields names lst = .ok ()) :
    ∀ p ∈ lst, ∀ d, p.2 = NamedType.ws d → ∀ f ∈ d.fields,
      f.computedBy ≠ some .external ∧ refErr names f.typ = none := by
  induction lst with
  | nil => intro p hp; exact absurd hp (List.not_mem_nil p)
  | cons p rest ih =>
    obtain ⟨nm, nt⟩ := p
    intro q hq d hd
    cases nt with
    | en s =>
      rw [checkFields] at h
      rcases List.mem_cons.mp hq with hq2 | hq2
      · subst hq2; exact absurd hd (by simp)
      · exact ih h q hq2 d hd
    | ws d0 =>
      rw [checkFields] at h
      cases hcf : checkFieldsDef names d0.name d0.fields with
      | error e => rw [hcf] at h; exact absurd h (by simp)
      | ok u =>
        obtain ⟨⟩ := u
        rw [hcf] at h
        rcases List.mem_cons.mp hq with hq2 | hq2
        · cases hq2
          cases hd
          exact checkFieldsDef_ok names d.name d.fields hcf
        · exact ih h q hq2 d hd

theorem checkDepsDef_ok (dm : List (String × NamedType)) (dn : String)
    (fs : List Field) (h : checkDepsDef dm dn fs = .ok ()) :
    ∀ f ∈ fs, trigger f ≠ some .external ∧
      ∀ sels, trigger f = some (.expr sels) →
        sels ≠ [] ∧ ∀ s ∈ sels, selectOk dm s (.defn dn) = true := by
  induction fs with
  | nil => intro f hf; exact absurd hf (List.not_mem_nil f)
  | cons f rest ih =>
    rw [checkDepsDef] at h
    intro g hg
    cases htr : trigger f with
    | none =>
      rw [htr] at h
      rcases List.mem_cons.mp hg with hg2 | hg2
      · subst hg2
        exact ⟨by rw [htr]; exact fun he => Option.noConfusion he,
          fun sels hs => absurd hs (by rw [htr]; exact fun he => Option.noConfusion he)⟩
      · exact ih h g hg2
    | some trig =>
      rw [htr] at h
      cases trig with
      | external => exact absurd h (by simp [selectorsOf])
      | expr sels0 =>
        simp only [selectorsOf] at h
        by_cases hemp : sels0.isEmpty
        · rw [if_pos hemp] at h
          exact absurd h (by simp)
        · rw [if_neg hemp] at h
          cases hfind : sels0.find? (fun s => !selectOk dm s (.defn dn)) with
          | some s => rw [hfind] at h; exact absurd h (by simp)
          | none =>
            rw [hfind] at h
            rcases List.mem_cons.mp hg with hg2 | hg2
            · subst hg2
              refine ⟨by simp [htr], ?_⟩
              intro sels hs
              rw [htr] at hs
              cases hs
              refine ⟨by simpa [List.isEmpty_iff] using hemp, ?_⟩
              intro s hs2
              have h4 := List.find?_eq_none.mp hfind s hs2
              simpa using h4
            · exact ih h g hg2

theorem checkDeps_ok (dm : List (String × NamedType))
    (lst : List (String × NamedType)) (h : checkDeps dm lst = .ok ()) :
    ∀ p ∈ lst, ∀ d, p.2 = NamedType.ws d → ∀ f ∈ d.fields,
      trigger f ≠ some .external ∧
      ∀ sels, trigger f = some (.expr sels) →
        sels ≠ [] ∧ ∀ s ∈ sels, selectOk dm s (.defn d.name) = true := by
  induction lst with
  | nil => intro p hp; exact absurd hp (List.not_mem_nil p)
  | cons p rest ih =>
    obtain ⟨nm, nt⟩ := p
    intro q hq d hd
    cases nt with
    | en s =>
      rw [checkDeps] at h
      rcases List.mem_cons.mp hq with hq2 | hq2
      · subst hq2; exact absurd hd (by simp)
      · exact ih h q hq2 d hd
    | ws d0 =>
      rw [checkDeps] at h
      cases hcd : checkDepsDef dm d0.name d0.fields with
      | error e => rw [hcd] at h; exact absurd h (by simp)
      | ok u =>
        obtain ⟨⟩ := u
        rw [hcd] at h
        rcases List.mem_cons.mp hq with hq2 | hq2
        · cases hq2
          cases hd
          exact checkDepsDef_ok dm d.name d.fields hcd
        · exact ih h q hq2 d hd

end Schema

/-- **C7.** If `NewDefinitions` returns a Definitions object, the
parsed input had none of the rejected defects: top-level type names are
pairwise distinct, no field's `computed_by` is an unbound external, no
field type references an unknown name, every computed or constrained
field's trigger expression resolved away from the external sentinel and
has a nonempty selector list, and every selector resolves against the
field's worksheet definition.  Contrapositively, an input exhibiting
any of the five defects is rejected with an error and no Definitions
object. -/
theorem newDefinitions_rejects (allDefs : List Schema.NamedType)
    (opts : List Schema.PluginTable) (dm2 : List (String × Schema.NamedType))
    (h : Schema.NewDefinitions allDefs opts = .ok dm2) :
    (allDefs.map Schema.nameOf).Nodup ∧
    ∀ p ∈ dm2, ∀ d, p.2 = Schema.NamedType.ws d → ∀ f ∈ d.fields,
      f.computedBy ≠ some .external ∧
      Schema.refErr (dm2.map (fun q => q.1)) f.typ = none ∧
      Schema.trigger f ≠ some .external ∧
      ∀ sels, Schema.trigger f = some (.expr sels) →
        sels ≠ [] ∧ ∀ s ∈ sels, Schema.selectOk dm2 s (.defn d.name) = true := by
  unfold Schema.NewDefinitions at h
  cases hb : Schema.buildDefs allDefs [] with
  | error e => simp [hb] at h
  | ok dm =>
    simp only [hb] at h
    cases hp : Schema.processOptions dm opts with
    | error e => simp [hp] at h
    | ok dmo =>
      simp only [hp] at h
      cases hcf : Schema.checkFields (dmo.map (fun p => p.1)) dmo with
      | error e => simp [hcf] at h
      | ok u =>
        obtain ⟨⟩ := u
        simp only [hcf] at h
        cases hcd : Schema.checkDeps dmo dmo with
        | error e => simp [hcd] at h
        | ok u2 =>
          obtain ⟨⟩ := u2
          simp only [hcd] at h
          have hdm : dmo = dm2 := by
            simpa using h
          subst hdm
          constructor
          · have h2 := Schema.buildDefs_nodup allDefs [] dm hb (by simp)
            simpa using h2
          · intro p hp2 d hd f hf
            have h3 := Schema.checkFields_ok _ dmo hcf p hp2 d hd f hf
            have h4 := Schema.checkDeps_ok dmo dmo hcd p hp2 d hd f hf
            exact ⟨h3.1, h3.2, h4.1, h4.2⟩

/-- Fixture for the C7 witness: two well-formed definitions, the second
holding a reference field and a computed field whose selector crosses
the reference. -/
def c7fName : Schema.Field := ⟨83, "name", .text, none, none⟩

def c7dSimple : Schema.Definition := ⟨"simple", [c7fName]⟩

def c7fRef : Schema.Field := ⟨87, "ref1", .defn "simple", none, none⟩

def c7fNice : Schema.Field := ⟨90, "nice", .text, some (.expr [["ref1", "name"]]), none⟩

def c7dWR : Schema.Definition := ⟨"with_refs2", [c7fRef, c7fNice]⟩

def c7All : List Schema.NamedType := [.ws c7dSimple, .ws c7dWR]

def c7dm : List (String × Schema.NamedType) :=
  [("simple", .ws c7dSimple), ("with_refs2", .ws c7dWR)]

/-- Witness for C7: on the concrete well-formed input `NewDefinitions`
succeeds, so by the theorem the names are distinct and the computed
field's cross-reference selector resolves. -/
theorem newDefinitions_rejects_witness :
    (c7All.map Schema.nameOf).Nodup ∧
    Schema.selectOk c7dm ["ref1", "name"] (.defn "with_refs2") = true := by
  have h := newDefinitions_rejects c7All [] c7dm (by rfl)
  refine ⟨h.1, ?_⟩
  have h2 := (h.2 ("with_refs2", .ws c7dWR) (by simp [c7dm]) c7dWR rfl c7fNice
    (by simp [c7dWR])).2.2.2 [["ref1", "name"]] rfl
  exact h2.2 ["ref1", "name"] (by simp)

/-- The `marshaler.graph` map (marshaling.go 52-54): worksheet id to
marshaled bytes, `none` being the `nil` marker installed before the
recursion. -/
abbrev Graph := List (String × Option String)

def gKeys (g : Graph) : List String := g.map (fun p => p.1)

/-- `m.graph[id] = bytes` replacing the marker. -/
def gSet (g : Graph) (id : String) (s : String) : Graph :=
  g.map (fun p => if p.1 = id then (id, some s) else p)

/-- Abstraction of `strconv.Quote` (Go standard library, not repository
code): the escaping of special characters is irrelevant to the
structural marshaling claims. -/
def quoteStr (s : String) : String := "\"" ++ s ++ "\""

/-- Modelled from the spec: `Number.String` lives in the values file,
which is not under src/; per §2 a number of scale s prints its mantissa
with exactly s decimal places. -/
def numberString (m : Int) (s : Nat) : String :=
  if s = 0 then toString m
  else
    let digits := toString m.natAbs
    let padded := String.mk (List.replicate (s + 1 - digits.length) '0') ++ digits
    (if m < 0 then "-" else "") ++ padded.dropRight s ++ "." ++
      padded.drop (padded.length - s)

mutual

/-- `marshaler.marshal` (marshaling.go 56-80): return if the id is
already in the graph, otherwise install the `nil` marker, render every
field as a `"name":value` member joined by commas, and replace the
marker by the rendered object.  `fuel` bounds the recursion depth,
which Go bounds by the growth of the finite graph; a missing worksheet
or field cannot arise through the Go pointer graph and is embedded as
failure. -/
def marshal (defs : Defs) (st : Store) (fuel : Nat) (g : Graph) (id : String) :
    Option Graph :=
  if (gKeys g).contains id then some g
  else
    match fuel with
    | 0 => none
    | fuel2 + 1 =>
      match st.getWs id with
      | none => none
      | some w =>
        match marshalFields defs st fuel2 (g ++ [(id, none)]) w.defName w.data with
        | none => none
        | some (ss, g2) =>
          some (gSet g2 id ("\x7b" ++ String.intercalate "," ss ++ "\x7d"))
termination_by (fuel, 0, 0)

/-- The field loop of `marshaler.marshal` (marshaling.go 67-77):
`"fieldname":` followed by the marshaled value, in data-map order. -/
def marshalFields (defs : Defs) (st : Store) (fuel : Nat) (g : Graph) (dn : String) :
    List (Int × Value) → Option (List String × Graph)
  | [] => some ([], g)
  | (idx, v) :: rest =>
    match defs.fieldAt dn idx with
    | none => none
    | some f =>
      match marshalValue defs st fuel g v with
      | none => none
      | some (s, g2) =>
        match marshalFields defs st fuel g2 dn rest with
        | none => none
        | some (ss, g3) => some ((quoteStr f.fname ++ ":" ++ s) :: ss, g3)
termination_by l => (fuel, 2, sizeOf l)

/-- `jsonMarshalValue` (marshaling.go 82-119), one clause per value
type; a worksheet reference writes its id and ensures the referenced
worksheet joins the overall marshal. -/
def marshalValue (defs : Defs) (st : Store) (fuel : Nat) (g : Graph) :
    Value → Option (String × Graph)
  | .undefined => some ("null", g)
  | .text s => some (quoteStr s, g)
  | .bool b => some ((if b then "true" else "false"), g)
  | .number m s => some (quoteStr (numberString m s), g)
  | .slice _ elems =>
    match marshalElems defs st fuel g elems with
    | none => none
    | some (ss, g2) => some ("[" ++ String.intercalate "," ss ++ "]", g2)
  | .ws cid _ =>
    match marshal defs st fuel g cid with
    | none => none
    | some g2 => some (quoteStr cid, g2)
  | .wsRefAtVersion cid _ _ =>
    match marshal defs st fuel g cid with
    | none => none
    | some g2 => some (quoteStr cid, g2)
termination_by v => (fuel, 1, sizeOf v)

/-- The element loop of the `Slice` clause (marshaling.go 100-109). -/
def marshalElems (defs : Defs) (st : Store) (fuel : Nat) (g : Graph) :
    List (Nat × Value) → Option (List String × Graph)
  | [] => some ([], g)
  | (_, v) :: t =>
    match marshalValue defs st fuel g v with
    | none => none
    | some (s, g2) =>
      match marshalElems defs st fuel g2 t with
      | none => none
      | some (ss, g3) => some (s :: ss, g3)
termination_by l => (fuel, 1, sizeOf l)

end

/-- `Worksheet.MarshalJSON` (marshaling.go 26-50): run the graph
marshal from an empty graph, then emit one top-level object with one
`"id":object` member per graph entry. -/
def MarshalJSON (defs : Defs) (st : Store) (fuel : Nat) (id : String) :
    Option String :=
  match marshal defs st fuel [] id with
  | none => none
  | some g =>
    some ("\x7b" ++ String.intercalate ","
      (g.map (fun p => quoteStr p.1 ++ ":" ++ (p.2.getD ""))) ++ "\x7d")

/-- Every worksheet reference stored in the graph resolves (true of the
Go pointer graph by construction). -/
def Closed (st : Store) : Prop :=
  ∀ p ∈ st.sheets, ∀ q ∈ p.2.data, ∀ c ∈ extractChildWs q.2,
    (st.getWs c).isSome = true

/-- Every stored data index has a field in its worksheet's definition
(true by construction, since `set` goes through field lookup). -/
def FieldsOk (defs : Defs) (st : Store) : Prop :=
  ∀ p ∈ st.sheets, ∀ q ∈ p.2.data, (defs.fieldAt p.2.defName q.1).isSome = true

/-- Marshaling graph invariant: keys are distinct resolvable ids. -/
def GInv (st : Store) (g : Graph) : Prop :=
  (gKeys g).Nodup ∧ ∀ i ∈ gKeys g, (st.getWs i).isSome = true

/-- The number of store ids not yet in the graph: the termination
measure of the Go recursion. -/
def missing (st : Store) (g : Graph) : Nat :=
  ((st.sheets.map (fun p => p.1)).filter (fun i => !(gKeys g).contains i)).length

/-- All worksheet references of one value resolve. -/
def VOk (st : Store) (v : Value) : Prop :=
  ∀ c ∈ extractChildWs v, (st.getWs c).isSome = true

theorem contains_iff_memStr {l : List String} {a : String} :
    l.contains a = true ↔ a ∈ l := by
  constructor
  · intro h
    obtain ⟨b, hb, he⟩ := List.contains_iff_exists_mem_beq.mp h
    rw [eq_of_beq he]
    exact hb
  · intro h
    exact List.contains_iff_exists_mem_beq.mpr ⟨a, h, by simp⟩

theorem gKeys_gSet (g : Graph) (id : String) (s : String) :
    gKeys (gSet g id s) = gKeys g := by
  unfold gKeys gSet
  rw [List.map_map]
  apply List.map_congr_left
  intro p _
  by_cases h : p.1 = id
  · simp [h]
  · simp [h]

theorem gKeys_append_marker (g : Graph) (id : String) :
    gKeys (g ++ [(id, none)]) = gKeys g ++ [id] := by
  unfold gKeys
  rw [List.map_append]
  rfl

theorem missing_gSet (st : Store) (g : Graph) (id : String) (s : String) :
    missing st (gSet g id s) = missing st g := by
  unfold missing
  rw [gKeys_gSet]

theorem filter_mono_length (l : List String) (p q : String → Bool)
    (himp : ∀ a, q a = true → p a = true) :
    (l.filter q).length ≤ (l.filter p).length := by
  induction l with
  | nil => exact Nat.le_refl 0
  | cons b t ih =>
    rw [List.filter_cons, List.filter_cons]
    cases hq : q b with
    | true =>
      rw [himp b hq]
      simpa using ih
    | false =>
      cases hp : p b with
      | true => simpa using Nat.le_succ_of_le ih
      | false => simpa using ih

theorem filter_strict_length (l : List String) (p q : String → Bool)
    (himp : ∀ a, q a = true → p a = true) (a : String) (ha : a ∈ l)
    (hpa : p a = true) (hqa : q a = false) :
    (l.filter q).length < (l.filter p).length := by
  induction l with
  | nil => exact absurd ha (List.not_mem_nil a)
  | cons b t ih =>
    rw [List.filter_cons, List.filter_cons]
    rcases List.mem_cons.mp ha with hab | hat
    · subst hab
      rw [hpa, hqa]
      simpa using Nat.lt_succ_of_le (filter_mono_length t p q himp)
    · cases hq : q b with
      | true =>
        rw [himp b hq]
        simpa using ih hat
      | false =>
        cases hp : p b with
        | true => simpa using Nat.lt_succ_of_lt (ih hat)
        | false => simpa using ih hat

theorem missing_le_of_keys_subset (st : Store) (g g2 : Graph)
    (h : ∀ i ∈ gKeys g, i ∈ gKeys g2) : missing st g2 ≤ missing st g := by
  unfold missing
  apply filter_mono_length
  intro a hq
  simp only [Bool.not_eq_true'] at hq ⊢
  cases hc : (gKeys g).contains a with
  | false => rfl
  | true =>
    rw [contains_iff_memStr.mpr (h a (contains_iff_memStr.mp hc))] at hq
    exact Bool.noConfusion hq

theorem missing_lt_insert (st : Store) (g : Graph) (id : String)
    (hin : id ∈ st.sheets.map (fun p => p.1)) (hnot : id ∉ gKeys g) :
    missing st (g ++ [(id, none)]) < missing st g := by
  unfold missing
  apply filter_strict_length _ _ _ ?himp id hin ?hpa ?hqa
  case himp =>
    intro a hq
    simp only [Bool.not_eq_true'] at hq ⊢
    cases hc : (gKeys g).contains a with
    | false => rfl
    | true =>
      have h2 : a ∈ gKeys (g ++ [(id, none)]) := by
        rw [gKeys_append_marker]
        exact List.mem_append_left _ (contains_iff_memStr.mp hc)
      rw [contains_iff_memStr.mpr h2] at hq
      exact Bool.noConfusion hq
  case hpa =>
    simp only [Bool.not_eq_true']
    cases hc : (gKeys g).contains id with
    | false => rfl
    | true => exact absurd (contains_iff_memStr.mp hc) hnot
  case hqa =>
    have h2 : id ∈ gKeys (g ++ [(id, none)]) := by
      rw [gKeys_append_marker]
      exact List.mem_append_right _ (List.mem_singleton.mpr rfl)
    show (!(gKeys (g ++ [(id, none)])).contains id) = false
    rw [contains_iff_memStr.mpr h2]
    rfl

/-- Totality of `marshal` at a fuel level: on a closed store with
resolvable fields, starting from any well-formed graph with at most
`fuel` store ids missing, the call succeeds, preserves the graph
invariant, only grows the key set, and ends with the id among the
keys. -/
def MTotal (defs : Defs) (st : Store) (fuel : Nat) : Prop :=
  ∀ g id, GInv st g → Closed st → FieldsOk defs st →
    (st.getWs id).isSome = true → missing st g ≤ fuel →
    ∃ g2, marshal defs st fuel g id = some g2 ∧ GInv st g2 ∧
      (∀ i ∈ gKeys g, i ∈ gKeys g2) ∧ id ∈ gKeys g2 ∧
      missing st g2 ≤ missing st g

/-- Totality of `jsonMarshalValue` at a fuel level. -/
def VTotal (defs : Defs) (st : Store) (fuel : Nat) : Prop :=
  ∀ g v, GInv st g → Closed st → FieldsOk defs st → VOk st v →
    missing st g ≤ fuel →
    ∃ s g2, marshalValue defs st fuel g v = some (s, g2) ∧ GInv st g2 ∧
      (∀ i ∈ gKeys g, i ∈ gKeys g2) ∧ missing st g2 ≤ missing st g

/-- Totality of the slice-element loop at a fuel level. -/
def ETotal (defs : Defs) (st : Store) (fuel : Nat) : Prop :=
  ∀ g l, GInv st g → Closed st → FieldsOk defs st →
    (∀ q ∈ l, VOk st (Prod.snd q)) → missing st g ≤ fuel →
    ∃ ss g2, marshalElems defs st fuel g l = some (ss, g2) ∧ GInv st g2 ∧
      (∀ i ∈ gKeys g, i ∈ gKeys g2) ∧ missing st g2 ≤ missing st g

/-- Totality of the field loop at a fuel level. -/
def FTotal (defs : Defs) (st : Store) (fuel : Nat) : Prop :=
  ∀ g dn l, GInv st g → Closed st → FieldsOk defs st →
    (∀ q ∈ l, (defs.fieldAt dn (Prod.fst q)).isSome = true ∧ VOk st (Prod.snd q)) →
    missing st g ≤ fuel →
    ∃ ss g2, marshalFields defs st fuel g dn l = some (ss, g2) ∧ GInv st g2 ∧
      (∀ i ∈ gKeys g, i ∈ gKeys g2) ∧ missing st g2 ≤ missing st g

theorem mem_extractList (l : List (Nat × Value)) (q : Nat × Value) (hq : q ∈ l)
    (c : String) (hc : c ∈ extractChildWs q.2) :
    c ∈ extractChildWs.extractList l := by
  induction l with
  | nil => exact absurd hq (List.not_mem_nil q)
  | cons p t ih =>
    obtain ⟨r, v⟩ := p
    rcases List.mem_cons.mp hq with h | h
    · subst h
      simp only [extractChildWs.extractList]
      exact List.mem_append_left _ hc
    · simp only [extractChildWs.extractList]
      exact List.mem_append_right _ (ih h)

mutual

theorem vtotal_of_mtotal (defs : Defs) (st : Store) (fuel : Nat)
    (hm : MTotal defs st fuel) :
    ∀ (v : Value) (g : Graph), GInv st g → Closed st → FieldsOk defs st →
      VOk st v → missing st g ≤ fuel →
      ∃ s g2, marshalValue defs st fuel g v = some (s, g2) ∧ GInv st g2 ∧
        (∀ i ∈ gKeys g, i ∈ gKeys g2) ∧ missing st g2 ≤ missing st g
  | .undefined, g, hg, _, _, _, _ =>
    ⟨"null", g, by rw [marshalValue], hg, fun i hi => hi, Nat.le_refl _⟩
  | .text s, g, hg, _, _, _, _ =>
    ⟨quoteStr s, g, by rw [marshalValue], hg, fun i hi => hi, Nat.le_refl _⟩
  | .bool b, g, hg, _, _, _, _ =>
    ⟨(if b then "true" else "false"), g, by rw [marshalValue], hg,
      fun i hi => hi, Nat.le_refl _⟩
  | .number m s, g, hg, _, _, _, _ =>
    ⟨quoteStr (numberString m s), g, by rw [marshalValue], hg,
      fun i hi => hi, Nat.le_refl _⟩
  | .slice et elems, g, hg, hc, hf, hv, hmiss => by
    have hvl : ∀ q ∈ elems, VOk st (Prod.snd q) := by
      intro q hq c hcm
      refine hv c ?_
      show c ∈ extractChildWs (.slice et elems)
      rw [extractChildWs]
      exact mem_extractList elems q hq c hcm
    obtain ⟨ss, g2, he, hg2, hsub, hm2⟩ :=
      etotal_of_mtotal defs st fuel hm elems g hg hc hf hvl hmiss
    exact ⟨"[" ++ String.intercalate "," ss ++ "]", g2, by simp only [marshalValue, he], hg2, hsub, hm2⟩
  | .ws cid dn, g, hg, hc, hf, hv, hmiss => by
    have hcid : (st.getWs cid).isSome = true := by
      refine hv cid ?_
      show cid ∈ extractChildWs (.ws cid dn)
      rw [extractChildWs]
      exact List.mem_singleton.mpr rfl
    obtain ⟨g2, hmar, hg2, hsub, _, hm2⟩ := hm g cid hg hc hf hcid hmiss
    exact ⟨quoteStr cid, g2, by simp only [marshalValue, hmar], hg2, hsub, hm2⟩
  | .wsRefAtVersion cid dn ver, g, hg, hc, hf, hv, hmiss => by
    have hcid : (st.getWs cid).isSome = true := by
      refine hv cid ?_
      show cid ∈ extractChildWs (.wsRefAtVersion cid dn ver)
      rw [extractChildWs]
      exact List.mem_singleton.mpr rfl
    obtain ⟨g2, hmar, hg2, hsub, _, hm2⟩ := hm g cid hg hc hf hcid hmiss
    exact ⟨quoteStr cid, g2, by simp only [marshalValue, hmar], hg2, hsub, hm2⟩
termination_by v => sizeOf v

theorem etotal_of_mtotal (defs : Defs) (st : Store) (fuel : Nat)
    (hm : MTotal defs st fuel) :
    ∀ (l : List (Nat × Value)) (g : Graph), GInv st g → Closed st →
      FieldsOk defs st → (∀ q ∈ l, VOk st (Prod.snd q)) → missing st g ≤ fuel →
      ∃ ss g2, marshalElems defs st fuel g l = some (ss, g2) ∧ GInv st g2 ∧
        (∀ i ∈ gKeys g, i ∈ gKeys g2) ∧ missing st g2 ≤ missing st g
  | [], g, hg, _, _, _, _ =>
    ⟨[], g, by rw [marshalElems], hg, fun i hi => hi, Nat.le_refl _⟩
  | (r, v) :: t, g, hg, hc, hf, hvl, hmiss => by
    obtain ⟨s, g2, hval, hg2, hsub2, hm2⟩ :=
      vtotal_of_mtotal defs st fuel hm v g hg hc hf
        (hvl (r, v) (List.mem_cons_self _ _)) hmiss
    obtain ⟨ss, g3, he, hg3, hsub3, hm3⟩ :=
      etotal_of_mtotal defs st fuel hm t g2 hg2 hc hf
        (fun q hq => hvl q (List.mem_cons_of_mem _ hq)) (Nat.le_trans hm2 hmiss)
    exact ⟨s :: ss, g3, by simp only [marshalElems, hval, he], hg3,
      fun i hi => hsub3 i (hsub2 i hi), Nat.le_trans hm3 hm2⟩
termination_by l => sizeOf l

end

theorem ftotal_of_vtotal (defs : Defs) (st : Store) (fuel : Nat)
    (hv : VTotal defs st fuel) : FTotal defs st fuel := by
  intro g dn l
  induction l generalizing g with
  | nil =>
    intro hg _ _ _ _
    exact ⟨[], g, by rw [marshalFields], hg, fun i hi => hi, Nat.le_refl _⟩
  | cons q t ih =>
    obtain ⟨idx, v⟩ := q
    intro hg hc hfo hql hmiss
    rcases hql (idx, v) (List.mem_cons_self _ _) with ⟨h1a, h1b⟩
    obtain ⟨f, hfa0⟩ := Option.isSome_iff_exists.mp h1a
    have hfa : defs.fieldAt dn idx = some f := hfa0
    obtain ⟨s, g2, hval, hg2, hsub2, hm2⟩ := hv g v hg hc hfo h1b hmiss
    obtain ⟨ss, g3, hrest, hg3, hsub3, hm3⟩ :=
      ih g2 hg2 hc hfo (fun q hq => hql q (List.mem_cons_of_mem _ hq))
        (Nat.le_trans hm2 hmiss)
    exact ⟨(quoteStr f.fname ++ ":" ++ s) :: ss, g3,
      by simp only [marshalFields, hfa, hval, hrest], hg3,
      fun i hi => hsub3 i (hsub2 i hi), Nat.le_trans hm3 hm2⟩

theorem mtotal_zero (defs : Defs) (st : Store) : MTotal defs st 0 := by
  intro g id hg hc hfo hid hmiss
  have hidm : id ∈ st.sheets.map (fun p => p.1) := by
    obtain ⟨w, hw⟩ := Option.isSome_iff_exists.mp hid
    exact List.mem_map.mpr ⟨(id, w), getWs_mem hw, rfl⟩
  have hcached : id ∈ gKeys g := by
    by_contra hnot
    have hpos : 0 < missing st g := by
      unfold missing
      refine List.length_pos_of_mem (List.mem_filter.mpr ⟨hidm, ?_⟩)
      cases hcc : (gKeys g).contains id
      · rfl
      · exact absurd (contains_iff_memStr.mp hcc) hnot
    omega
  refine ⟨g, ?_, hg, fun i hi => hi, hcached, Nat.le_refl _⟩
  simp only [marshal, contains_iff_memStr.mpr hcached, if_true]

theorem mtotal_succ (defs : Defs) (st : Store) (fuel : Nat)
    (hft : FTotal defs st fuel) : MTotal defs st (fuel + 1) := by
  intro g id hg hc hfo hid hmiss
  by_cases hcached : id ∈ gKeys g
  · refine ⟨g, ?_, hg, fun i hi => hi, hcached, Nat.le_refl _⟩
    simp only [marshal, contains_iff_memStr.mpr hcached, if_true]
  · obtain ⟨w, hw⟩ := Option.isSome_iff_exists.mp hid
    have hidm : id ∈ st.sheets.map (fun p => p.1) :=
      List.mem_map.mpr ⟨(id, w), getWs_mem hw, rfl⟩
    have hg' : GInv st (g ++ [(id, none)]) := by
      constructor
      · rw [gKeys_append_marker]
        refine List.Nodup.append hg.1 (by simp) ?_
        intro a ha hb
        rw [List.mem_singleton] at hb
        exact hcached (hb ▸ ha)
      · intro i hi
        rw [gKeys_append_marker] at hi
        rcases List.mem_append.mp hi with h | h
        · exact hg.2 i h
        · rw [List.mem_singleton] at h
          rw [h]
          exact hid
    have hlt := missing_lt_insert st g id hidm hcached
    have hmiss' : missing st (g ++ [(id, none)]) ≤ fuel := by omega
    have hql : ∀ q ∈ w.data, (defs.fieldAt w.defName (Prod.fst q)).isSome = true ∧
        VOk st (Prod.snd q) := by
      intro q hq
      have hmem := getWs_mem hw
      exact ⟨hfo (id, w) hmem q hq, fun c hcm => hc (id, w) hmem q hq c hcm⟩
    obtain ⟨ss, g2, hfields, hg2, hsub2, hm2⟩ :=
      hft (g ++ [(id, none)]) w.defName w.data hg' hc hfo hql hmiss'
    have hnc : (gKeys g).contains id = false := by
      cases hcc : (gKeys g).contains id
      · rfl
      · exact absurd (contains_iff_memStr.mp hcc) hcached
    refine ⟨gSet g2 id ("\x7b" ++ String.intercalate "," ss ++ "\x7d"), ?_, ?_, ?_, ?_, ?_⟩
    · simp only [marshal, hnc, Bool.false_eq_true, if_false, hw, hfields]
    · constructor
      · rw [gKeys_gSet]; exact hg2.1
      · intro i hi
        rw [gKeys_gSet] at hi
        exact hg2.2 i hi
    · intro i hi
      rw [gKeys_gSet]
      exact hsub2 i (by rw [gKeys_append_marker]; exact List.mem_append_left _ hi)
    · rw [gKeys_gSet]
      exact hsub2 id (by rw [gKeys_append_marker]; exact List.mem_append_right _ (by simp))
    · rw [missing_gSet]
      exact Nat.le_trans hm2 (Nat.le_of_lt hlt)

theorem mtotal_all (defs : Defs) (st : Store) : ∀ fuel, MTotal defs st fuel
  | 0 => mtotal_zero defs st
  | fuel + 1 =>
    mtotal_succ defs st fuel
      (ftotal_of_vtotal defs st fuel
        (fun g v h1 h2 h3 h4 h5 =>
          vtotal_of_mtotal defs st fuel (mtotal_all defs st fuel) v g h1 h2 h3 h4 h5))

/-- **C8.** On a closed worksheet graph (every stored reference
resolves, every stored index has a field) — cycles and shared
sub-worksheets included — `MarshalJSON` terminates whenever the fuel
bound covers the number of live worksheets (Go needs no bound: the
recursion is cut by the marker inserted before each recursive
marshal), and the result is one top-level object holding one
`"id":object` member per marshaled graph entry, whose keys are
pairwise distinct worksheet ids of the store. -/
theorem marshalJSON_terminates_nodup (defs : Defs) (st : Store) (id : String)
    (fuel : Nat) (hclosed : Closed st) (hfok : FieldsOk defs st)
    (hid : (st.getWs id).isSome = true) (hfuel : st.sheets.length ≤ fuel) :
    ∃ g, marshal defs st fuel [] id = some g ∧
      MarshalJSON defs st fuel id = some ("\x7b" ++ String.intercalate ","
        (g.map (fun p => quoteStr p.1 ++ ":" ++ (p.2.getD ""))) ++ "\x7d") ∧
      (gKeys g).Nodup ∧ id ∈ gKeys g ∧
      ∀ i ∈ gKeys g, (st.getWs i).isSome = true := by
  have h0 : GInv st ([] : Graph) := by
    constructor
    · exact List.nodup_nil
    · intro i hi
      exact absurd hi (List.not_mem_nil i)
  have hmiss : missing st ([] : Graph) ≤ fuel := by
    have h1 : missing st ([] : Graph) ≤ st.sheets.length := by
      unfold missing
      calc ((st.sheets.map (fun p => p.1)).filter _).length
          ≤ (st.sheets.map (fun p => p.1)).length := List.length_filter_le _ _
        _ = st.sheets.length := List.length_map _ _
    omega
  obtain ⟨g2, hg2, hinv, _, hidk, _⟩ :=
    mtotal_all defs st fuel [] id h0 hclosed hfok hid hmiss
  refine ⟨g2, hg2, ?_, hinv.1, hidk, hinv.2⟩
  rw [MarshalJSON, hg2]

/-- Fixture for the C8 witness: a two-cycle — worksheets `a` and `b`
of definition `pal` referencing each other. -/
def c8Defs : Defs := ⟨[⟨"pal", [⟨1, "buddy", .defn "pal", "pal", none, none, []⟩]⟩]⟩

def c8wA : WsData := ⟨"pal", [(1, .ws "b" "pal")], []⟩

def c8wB : WsData := ⟨"pal", [(1, .ws "a" "pal")], []⟩

def c8Store : Store := ⟨[("a", c8wA), ("b", c8wB)]⟩

/-- Witness for C8: marshaling the cyclic pair from `a` with fuel 2
terminates with distinct keys including `a`. -/
theorem marshalJSON_terminates_nodup_witness :
    ∃ g, marshal c8Defs c8Store 2 [] "a" = some g ∧
      MarshalJSON c8Defs c8Store 2 "a" = some ("\x7b" ++ String.intercalate ","
        (g.map (fun p => quoteStr p.1 ++ ":" ++ (p.2.getD ""))) ++ "\x7d") ∧
      (gKeys g).Nodup ∧ "a" ∈ gKeys g ∧
      ∀ i ∈ gKeys g, (c8Store.getWs i).isSome = true :=
  marshalJSON_terminates_nodup c8Defs c8Store "a" 2
    (by unfold Closed; decide) (by unfold FieldsOk; decide) (by decide) (by decide)

/-- Integer destination kinds of `StructScan` (`reflect.Int` …
`reflect.Int64`); `i0` is the platform-sized `int`, 64-bit. -/
inductive IntKind where
  | i0 | i8 | i16 | i32 | i64
deriving DecidableEq

/-- Unsigned destination kinds (`reflect.Uint` … `reflect.Uint64`). -/
inductive UintKind where
  | u0 | u8 | u16 | u32 | u64
deriving DecidableEq

/-- Destination field kinds `Number.structScanConvert` distinguishes. -/
inductive DestKind where
  | str
  | f32
  | f64
  | int : IntKind → DestKind
  | uint : UintKind → DestKind
  | other
deriving DecidableEq

def intBits : IntKind → Nat
  | .i0 => 64
  | .i8 => 8
  | .i16 => 16
  | .i32 => 32
  | .i64 => 64

def uintBits : UintKind → Nat
  | .u0 => 64
  | .u8 => 8
  | .u16 => 16
  | .u32 => 32
  | .u64 => 64

/-- `strconv.ParseInt(value.String(), 0, bits)` (Go standard library)
applied to the decimal rendering of a scale-0 number: succeeds exactly
when the value fits the signed bit width (bit size 0 meaning the
64-bit platform int, already resolved in `intBits`). -/
def parseIntB (m : Int) (bits : Nat) : Option Int :=
  if -(2 ^ (bits - 1)) ≤ m ∧ m < 2 ^ (bits - 1) then some m else none

/-- `strconv.ParseUint(value.String(), 0, bits)`: succeeds exactly when
the value is a non-negative fit for the unsigned bit width. -/
def parseUintB (m : Int) (bits : Nat) : Option Int :=
  if 0 ≤ m ∧ m < 2 ^ bits then some m else none

/-- The reflected value `Number.structScanConvert` produces. -/
inductive ScanVal where
  | str : String → ScanVal
  | f32 : ScanVal
  | f64 : ScanVal
  | int : IntKind → Int → ScanVal
  | uint : UintKind → Int → ScanVal
deriving DecidableEq

/-- `Number.structScanConvert` (marshaling.go 378-468) with the control
flow flattened per destination kind.  String destinations take the
decimal rendering; float destinations parse it (the float payload and
range are abstracted: they are outside the integer-conversion claims).
Integer destinations are gated on source scale 0; an out-of-range parse
reports `value out of range` — except on `Int64`/`Uint64`, where the
`:=`-shadowed `err` of the source skips that return and falls through
(for `Int64` into the unsigned block, whose leading negativity check
still fires) to `cannot convert`.  Any other kind falls through both
integer blocks, hitting the negativity check when the scale is 0. -/
def structScanConvertNumber (m : Int) (scale : Nat) (dest : DestKind) :
    Except String ScanVal :=
  match dest with
  | .str => .ok (.str (numberString m scale))
  | .f32 => .ok .f32
  | .f64 => .ok .f64
  | .int k =>
    if scale = 0 then
      match parseIntB m (intBits k) with
      | some i => .ok (.int k i)
      | none =>
        if k = .i64 then
          if m < 0 then .error "value out of range" else .error "cannot convert"
        else .error "value out of range"
    else .error "cannot convert"
  | .uint k =>
    if scale = 0 then
      if m < 0 then .error "value out of range"
      else
        match parseUintB m (uintBits k) with
        | some i => .ok (.uint k i)
        | none =>
          if k = .u64 then .error "cannot convert" else .error "value out of range"
    else .error "cannot convert"
  | .other =>
    if scale = 0 ∧ m < 0 then .error "value out of range" else .error "cannot convert"

/-- **C9.** A `Number` value converts into an integer-kinded
destination exactly when the declared number type has scale 0 and the
mantissa fits the destination bit width (non-negative for unsigned
kinds); in every other case the conversion returns an error. -/
theorem number_structScan_int (m : Int) (scale : Nat) :
    (∀ k : IntKind,
      (scale = 0 ∧ -(2 ^ (intBits k - 1)) ≤ m ∧ m < 2 ^ (intBits k - 1) →
        structScanConvertNumber m scale (.int k) = .ok (.int k m)) ∧
      (¬ (scale = 0 ∧ -(2 ^ (intBits k - 1)) ≤ m ∧ m < 2 ^ (intBits k - 1)) →
        ∃ e, structScanConvertNumber m scale (.int k) = .error e)) ∧
    (∀ k : UintKind,
      (scale = 0 ∧ 0 ≤ m ∧ m < 2 ^ uintBits k →
        structScanConvertNumber m scale (.uint k) = .ok (.uint k m)) ∧
      (¬ (scale = 0 ∧ 0 ≤ m ∧ m < 2 ^ uintBits k) →
        ∃ e, structScanConvertNumber m scale (.uint k) = .error e)) := by
  constructor
  · intro k
    constructor
    · rintro ⟨hs, h1, h2⟩
      subst hs
      simp only [structScanConvertNumber, parseIntB]
      rw [if_pos trivial, if_pos ⟨h1, h2⟩]
    · intro hn
      by_cases hs : scale = 0
      · subst hs
        by_cases hfit : -(2 ^ (intBits k - 1)) ≤ m ∧ m < 2 ^ (intBits k - 1)
        · exact absurd ⟨rfl, hfit.1, hfit.2⟩ hn
        · simp only [structScanConvertNumber, parseIntB]
          rw [if_pos trivial, if_neg hfit]
          by_cases hk : k = IntKind.i64
          · rw [if_pos hk]
            by_cases hm : m < 0
            · exact ⟨"value out of range", by rw [if_pos hm]⟩
            · exact ⟨"cannot convert", by rw [if_neg hm]⟩
          · exact ⟨"value out of range", by rw [if_neg hk]⟩
      · refine ⟨"cannot convert", ?_⟩
        simp only [structScanConvertNumber]
        rw [if_neg hs]
  · intro k
    constructor
    · rintro ⟨hs, h1, h2⟩
      subst hs
      simp only [structScanConvertNumber, parseUintB]
      rw [if_pos trivial, if_neg (by omega), if_pos ⟨h1, h2⟩]
    · intro hn
      by_cases hs : scale = 0
      · subst hs
        by_cases hm : m < 0
        · exact ⟨"value out of range", by
            simp only [structScanConvertNumber]
            rw [if_pos trivial, if_pos hm]⟩
        · by_cases hfit : 0 ≤ m ∧ m < 2 ^ uintBits k
          · exact absurd ⟨rfl, hfit.1, hfit.2⟩ hn
          · simp only [structScanConvertNumber, parseUintB]
            rw [if_pos trivial, if_neg hm, if_neg hfit]
            by_cases hk : k = UintKind.u64
            · exact ⟨"cannot convert", by rw [if_pos hk]⟩
            · exact ⟨"value out of range", by rw [if_neg hk]⟩
      · refine ⟨"cannot convert", ?_⟩
        simp only [structScanConvertNumber]
        rw [if_neg hs]

/-- Witness for C9: 300 with scale 0 converts into an `int16` but is
rejected for an `int8`; with scale 2 (the value 3.00) even an `int64`
destination is rejected. -/
theorem number_structScan_int_witness :
    structScanConvertNumber 300 0 (.int .i16) = .ok (.int .i16 300) ∧
    (∃ e, structScanConvertNumber 300 0 (.int .i8) = .error e) ∧
    (∃ e, structScanConvertNumber 300 2 (.int .i64) = .error e) ∧
    structScanConvertNumber 300 0 (.uint .u16) = .ok (.uint .u16 300) ∧
    (∃ e, structScanConvertNumber (-1) 0 (.uint .u32) = .error e) :=
  ⟨((number_structScan_int 300 0).1 .i16).1 (by decide),
   ((number_structScan_int 300 0).1 .i8).2 (by decide),
   ((number_structScan_int 300 2).1 .i64).2 (by decide),
   ((number_structScan_int 300 0).2 .u16).1 (by decide),
   ((number_structScan_int (-1) 0).2 .u32).2 (by decide)⟩

end Worksheets
